import Mathlib

/-!
Verification of the rFOrLSR analysis-tools core (`rFOrLSR/Tools/__init__.py`)
against its natural-language specification.

The embedding uses exact rational arithmetic (`ℚ`) for the floating-point
computations of the source; division by zero is the `ℚ` convention `x / 0 = 0`,
which is only exercised on the degenerate inputs (linearly dependent or zero
columns, zero output variance) that the specification declares unguarded.

Vectors are `List ℚ`; a matrix is its list of columns (`List (List ℚ)`), since
the source only ever accesses `Ds` column-wise.
-/

namespace RFOrLSR

/-- Inner product of two equal-length vectors (torch `u @ v`). -/
def dot (u v : List ℚ) : ℚ := (List.zipWith (fun a b => a * b) u v).sum

/-- Squared Euclidean norm (`HF.Norm2`). -/
def norm2 (v : List ℚ) : ℚ := dot v v

/-- Scalar multiple of a vector. -/
def smul (c : ℚ) (v : List ℚ) : List ℚ := v.map (fun a => c * a)

/-- Entry-wise division of a vector by a scalar (torch `v / c`). -/
def vdiv (v : List ℚ) (c : ℚ) : List ℚ := v.map (fun a => a / c)

/-- Entry-wise difference of two vectors. -/
def vsub (u v : List ℚ) : List ℚ := List.zipWith (fun a b => a - b) u v

/-- The source's `Ds[:, col] - Psi_n @ (Psi.T @ Ds[:, col])`: subtract from the raw
column `d`, for every accumulated pair of an unnormalized basis column (from `Psi`)
and its normalized counterpart (from `Psi_n`), the normalized column scaled by the
inner product of the unnormalized column with `d`. -/
def orthogonalize (Psi Psin : List (List ℚ)) (d : List ℚ) : List ℚ :=
  (List.zip Psi Psin).foldl (fun acc pq => vsub acc (smul (dot pq.1 d) pq.2)) d

/-- The loop `for col in range(1, Ds.shape[1])` of `ComputeERR`: `cols` are the
remaining columns, `Psi`/`Psin` the accumulated bases, `acc` the sum of the ERR
entries already computed (`np.sum(ERR[:col])`, since earlier entries are final).
When `acc ≥ 1` the source returns with the remaining entries still holding the
initial fill value `0.0`, modelled by `List.replicate _ 0`. -/
def errAux (y : List ℚ) (s2y : ℚ) :
    List (List ℚ) → List (List ℚ) → List (List ℚ) → ℚ → List ℚ
  | [], _, _, _ => []
  | d :: rest, Psi, Psin, acc =>
    if 1 ≤ acc then List.replicate (d :: rest).length 0
    else
      let Omega := orthogonalize Psi Psin d
      let n := norm2 Omega
      let e := (dot Omega y / n) ^ 2 * n / s2y
      e :: errAux y s2y rest (Psi ++ [Omega]) (Psin ++ [vdiv Omega n]) (acc + e)

/-- `ComputeERR(y, Ds)` from the source.  The first column is special-cased
exactly as in the code: no orthogonalization, `ERR[0] = (Psi_n.T @ y)² * n_Omega
/ s2y`, and no saturation check before it.  The source indexes `Ds[:, 0]`
unconditionally, so it raises on a matrix with zero columns; the `[]` branch
below is outside the function's domain and every claim is stated for a
non-empty `Ds`. -/
def ComputeERR (y : List ℚ) (Ds : List (List ℚ)) : List ℚ :=
  match Ds with
  | [] => []
  | d0 :: rest =>
    let s2y := dot y y
    let n0 := norm2 d0
    let Psin0 := vdiv d0 n0
    let e0 := dot Psin0 y ^ 2 * n0 / s2y
    e0 :: errAux y s2y rest [d0] [Psin0] e0

/-- Gram-Schmidt residual as the specification words it: the raw column minus,
for each previously accumulated orthogonal direction, its projection
`(Om·d / ‖Om‖²) Om`.  The coefficients use the raw column `d` throughout,
matching the single simultaneous subtraction `Psi_n @ (Psi.T @ d)` of the code. -/
def gsResidual (Psi : List (List ℚ)) (d : List ℚ) : List ℚ :=
  Psi.foldl (fun acc Om => vsub acc (smul (dot Om d / norm2 Om) Om)) d

/-- Uniform restatement of the `ComputeERR` recursion: every column, including
the first, is treated by the general formula
`ERR = (Omega·y / n_Omega)² * n_Omega / s2y`, carrying only the unnormalized
basis.  `ComputeERR_eq_uniformERR` proves it equal to the code. -/
def uniformERR (y : List ℚ) (s2y : ℚ) :
    List (List ℚ) → List (List ℚ) → ℚ → List ℚ
  | [], _, _ => []
  | d :: rest, Psi, acc =>
    if 1 ≤ acc then List.replicate (d :: rest).length 0
    else
      let Om := gsResidual Psi d
      let n := norm2 Om
      let e := (dot Om y / n) ^ 2 * n / s2y
      e :: uniformERR y s2y rest (Psi ++ [Om]) (acc + e)

/-- The ERR value `(Omega·y / n_Omega)² * n_Omega / s2y` that the general
formula assigns to the raw column `d` orthogonalized against the basis `Psi`. -/
def errEntry (y : List ℚ) (s2y : ℚ) (Psi : List (List ℚ)) (d : List ℚ) : ℚ :=
  (dot (gsResidual Psi d) y / norm2 (gsResidual Psi d)) ^ 2
    * norm2 (gsResidual Psi d) / s2y

/-- The basis of residuals accumulated after processing the given columns,
starting from basis `Psi`. -/
def extendBasis (Psi : List (List ℚ)) (cols : List (List ℚ)) : List (List ℚ) :=
  cols.foldl (fun P d => P ++ [gsResidual P d]) Psi

/-- The orthogonal basis the specification associates with a column prefix. -/
def specBasis (cols : List (List ℚ)) : List (List ℚ) := extendBasis [] cols

/-- Bessel sum `Σ (Om·y)² / ‖Om‖²` over a list of (orthogonal) directions; the
running ERR sum times `s2y` always equals this quantity for the accumulated
basis. -/
def besselSum (y : List ℚ) (Psi : List (List ℚ)) : ℚ :=
  (Psi.map (fun Om => dot Om y ^ 2 / norm2 Om)).sum

/-- Arithmetic mean of a vector (`v.mean()`); `0` on the empty vector. -/
def mean (v : List ℚ) : ℚ := v.sum / (v.length : ℚ)

/-- `v - v.mean()`. -/
def centerVec (v : List ℚ) : List ℚ := v.map (fun a => a - mean v)

/-- `M - M.mean(axis = 0, keepdims = True)`: center every column of a matrix
stored as its list of columns. -/
def centerCols (M : List (List ℚ)) : List (List ℚ) := M.map centerVec

/-- The loop `for ModelOrder in range(1, MaxOrder + 1)` of
`ExpansionOrderEstimator`.  `k` is the order evaluated in the current
iteration; `countdown` is the number of further iterations the range would
still allow; `vs` is the `ModelExplainedVariance` list built so far.  Each
iteration appends `min(1, f k)`; the loop breaks as soon as the appended value
reaches `thr`, and the returned order is the loop variable's final value. -/
def orderGo (f : ℕ → ℚ) (thr : ℚ) : ℕ → ℕ → List ℚ → ℕ × List ℚ
  | k, 0, vs => (k, vs ++ [min 1 (f k)])
  | k, countdown + 1, vs =>
    if thr ≤ min 1 (f k) then (k, vs ++ [min 1 (f k)])
    else orderGo f thr (k + 1) countdown (vs ++ [min 1 (f k)])

/-- `ExpansionOrderEstimator` (§4.3), with the external dictionary collaborators
abstracted: `y_cut` is the windowed output returned by `CTors.Lagger` at the
fixed `MaxLags`, and `Expand k` is the regressor matrix
`CTors.Expander(RegMat, RegNames, ExpansionOrder = k)[0]` (the `CTors` module
is outside the analysed source).  The output vector is centered once
(`y_cut -= y_cut.mean()`), each expanded matrix is centered column-wise, and
the variance list is seeded with `0` for the order-0 constant model.  Plotting
and the progress bar are observational side effects and are not modelled. -/
def ExpansionOrderEstimator (y_cut : List ℚ) (Expand : ℕ → List (List ℚ))
    (maxOrder : ℕ) (thr : ℚ) : ℕ × List ℚ :=
  orderGo (fun k => (ComputeERR (centerVec y_cut) (centerCols (Expand k))).sum)
    thr 1 (maxOrder - 1) [0]

-- #### Lag-grid search (`MaxLagsEstimator`)

/-- Reads `Grid[r, c]` during the fill: `rows` are the completed rows, `cur`
the (partial) row currently being filled.  `none` models a cell still holding
the `np.nan` initial fill — in particular `nan == 1.0` is false in the source,
which is how an unassigned cell fails the dominance test. -/
def lookupCell (rows : List (List ℚ)) (cur : List ℚ) (r c : ℕ) : Option ℚ :=
  if r < rows.length then (rows.getD r [])[c]?
  else if r = rows.length then cur[c]?
  else none

/-- One cell of the grid fill: the dominance shortcut
`Grid[max(na-1,0), nb] == 1.0 and Grid[na, max(nb-1,0)] == 1.0` (with `Nat`
truncated subtraction playing `max(· - 1, 0)`) sets the cell to `1.0` without
recomputation; otherwise the cell is computed by `cell na nb`. -/
def fillCell (cell : ℕ → ℕ → ℚ) (rows : List (List ℚ)) (cur : List ℚ)
    (na nb : ℕ) : ℚ :=
  if lookupCell rows cur (na - 1) nb = some 1 ∧ lookupCell rows cur na (nb - 1) = some 1
  then 1 else cell na nb

/-- The inner loop `for nb in range(MaxLags[0] + 1)`: fills the row
`na = rows.length` left to right, `countdown` cells remaining. -/
def fillRowGo (cell : ℕ → ℕ → ℚ) (rows : List (List ℚ)) : ℕ → List ℚ → List ℚ
  | 0, cur => cur
  | countdown + 1, cur =>
    fillRowGo cell rows countdown (cur ++ [fillCell cell rows cur rows.length cur.length])

/-- The outer loop `for na in range(MaxLags[1] + 1)`: appends one filled row
per output lag. -/
def fillGridGo (cell : ℕ → ℕ → ℚ) (width : ℕ) : ℕ → List (List ℚ) → List (List ℚ)
  | 0, rows => rows
  | countdown + 1, rows => fillGridGo cell width countdown (rows ++ [fillRowGo cell rows width []])

/-- The grid fill of `MaxLagsEstimator`:
`Grid = np.full((MaxLags[1] + 1, MaxLags[0] + 1), np.nan)` filled row-major
with output lag `na` as the row index and input lag `nb` as the column index. -/
def fillGrid (cell : ℕ → ℕ → ℚ) (height width : ℕ) : List (List ℚ) :=
  fillGridGo cell width height []

/-- Closed-form recursion for the filled grid: row 0 and column 0 are always
computed (their clamped dominance lookup points at the cell itself, which still
holds `nan` at test time and so never compares equal to `1.0`), and an interior
cell is `1` exactly when both already-filled neighbours are `1`.
`fillGrid_entry_eq_gridVal` proves this equal to the sentinel-based fill. -/
def gridVal (cell : ℕ → ℕ → ℚ) : ℕ → ℕ → ℚ
  | 0, nb => cell 0 nb
  | na + 1, 0 => cell (na + 1) 0
  | na + 1, nb + 1 =>
    if gridVal cell na (nb + 1) = 1 ∧ gridVal cell (na + 1) nb = 1 then 1
    else cell (na + 1) (nb + 1)
  termination_by na nb => (na, nb)

/-- The ERR evaluation of one grid cell (the `else` branch of the fill):
regressors are built by the external `CTors.Lagger` at exactly `(nb, na)`,
expanded to `order` by the external `CTors.Expander`, both output and columns
are centered, and the cell is `min(1, ΣERR)`.  `Lag nb na` abstracts
`CTors.Lagger(Data = (x, y), Lags = (nb, na))` as the pair
`(y_cut, RegMat)`; `Exp M order` abstracts `CTors.Expander(M, names, order)`. -/
def cellValue (Lag : ℕ → ℕ → List ℚ × List (List ℚ))
    (Exp : List (List ℚ) → ℕ → List (List ℚ)) (order na nb : ℕ) : ℚ :=
  min 1 (ComputeERR (centerVec (Lag nb na).1) (centerCols (Exp (Lag nb na).2 order))).sum

/-- Reads an entry of the returned grid (in-range reads only are ever used). -/
def gridEntry (grid : List (List ℚ)) (na nb : ℕ) : ℚ := (grid.getD na []).getD nb 0

/-- The three named recommendations returned by `MaxLagsEstimator`. -/
structure Recommendations where
  minXY : ℕ × ℕ
  minX : ℕ × ℕ
  minY : ℕ × ℕ

/-- `na + nb < BestIdx` where `BestIdx` starts at `np.inf` (`none`). -/
def ltOptIdx (k : ℕ) : Option ℕ → Bool
  | none => true
  | some b => k < b

/-- Row-major pair list `(na, nb)` for the recommendation scans. -/
def lagPairs (L0 L1 : ℕ) : List (ℕ × ℕ) :=
  (List.range (L1 + 1)).flatMap (fun na => (List.range (L0 + 1)).map (fun nb => (na, nb)))

/-- The `Min_XY` scan: first position (row-major) with `Grid[na, nb] > thr`
minimizing `na + nb`; the recommendation stays at the maximum-lag corner if no
cell exceeds the threshold. -/
def minXYGo (grid : List (List ℚ)) (thr : ℚ) :
    List (ℕ × ℕ) → Option ℕ → ℕ × ℕ → ℕ × ℕ
  | [], _, rec => rec
  | p :: rest, best, rec =>
    if thr < gridEntry grid p.1 p.2 ∧ ltOptIdx (p.1 + p.2) best = true
    then minXYGo grid thr rest (some (p.1 + p.2)) (p.2, p.1)
    else minXYGo grid thr rest best rec

/-- `np.argmax(boolean array)`: index of the first `True`, `0` when all are
`False`; `i` is the index of the head of the remaining list. -/
def firstTrueIdxGo (p : ℚ → Bool) : List ℚ → ℕ → ℕ
  | [], _ => 0
  | a :: l, i => if p a then i else firstTrueIdxGo p l (i + 1)

/-- `np.argmax(l > thr)`-style scan starting at index 0. -/
def firstTrueIdx (p : ℚ → Bool) (l : List ℚ) : ℕ := firstTrueIdxGo p l 0

/-- The `Min_Y` scan: first row whose first above-threshold column index is
nonzero; defaults to the maximum-lag corner. -/
def minYGo (grid : List (List ℚ)) (thr : ℚ) (L0 L1 : ℕ) : List ℕ → ℕ × ℕ
  | [] => (L0, L1)
  | na :: rest =>
    if firstTrueIdx (fun v => decide (thr < v)) (grid.getD na []) ≠ 0
    then (firstTrueIdx (fun v => decide (thr < v)) (grid.getD na []), na)
    else minYGo grid thr L0 L1 rest

/-- Column `nb` of the grid, as read by the `Min_X` scan (`Grid[:, nb]`). -/
def colAt (grid : List (List ℚ)) (nb : ℕ) : List ℚ := grid.map (fun row => row.getD nb 0)

/-- The `Min_X` scan: first column whose first above-threshold row index is
nonzero; defaults to the maximum-lag corner. -/
def minXGo (grid : List (List ℚ)) (thr : ℚ) (L0 L1 : ℕ) : List ℕ → ℕ × ℕ
  | [] => (L0, L1)
  | nb :: rest =>
    if firstTrueIdx (fun v => decide (thr < v)) (colAt grid nb) ≠ 0
    then (nb, firstTrueIdx (fun v => decide (thr < v)) (colAt grid nb))
    else minXGo grid thr L0 L1 rest

/-- Maximum entry of a non-empty list (`np.max`); `0` on `[]`, which is never
hit since the grid always has at least one cell. -/
def listMax : List ℚ → ℚ
  | [] => 0
  | a :: l => l.foldl max a

/-- The condition of the non-fatal warning print
`np.max(Grid) < VarianceAcceptThreshold` at the end of `MaxLagsEstimator`. -/
def warnInsufficient (grid : List (List ℚ)) (thr : ℚ) : Bool :=
  decide (listMax grid.flatten < thr)

/-- `MaxLagsEstimator` (§4.4) with the external `CTors` collaborators
abstracted as for `cellValue`.  Returns the recommendation set and the filled
grid (the source returns `(Recommendations, Grid)`); plotting and the progress
bar are not modelled, and the warning print is modelled by
`warnInsufficient`. -/
def MaxLagsEstimator (Lag : ℕ → ℕ → List ℚ × List (List ℚ))
    (Exp : List (List ℚ) → ℕ → List (List ℚ)) (order L0 L1 : ℕ) (thr : ℚ) :
    Recommendations × List (List ℚ) :=
  ({ minXY := minXYGo (fillGrid (cellValue Lag Exp order) (L1 + 1) (L0 + 1)) thr
        (lagPairs L0 L1) none (L0, L1),
     minX := minXGo (fillGrid (cellValue Lag Exp order) (L1 + 1) (L0 + 1)) thr L0 L1
        (List.range (L0 + 1)),
     minY := minYGo (fillGrid (cellValue Lag Exp order) (L1 + 1) (L0 + 1)) thr L0 L1
        (List.range (L1 + 1)) },
   fillGrid (cellValue Lag Exp order) (L1 + 1) (L0 + 1))

-- ### Basic algebra of the vector operations

theorem dot_nil_left (v : List ℚ) : dot [] v = 0 := rfl

theorem dot_nil_right (u : List ℚ) : dot u [] = 0 := by
  cases u <;> rfl

theorem dot_cons (a : ℚ) (u : List ℚ) (b : ℚ) (v : List ℚ) :
    dot (a :: u) (b :: v) = a * b + dot u v := by
  simp [dot]

theorem dot_comm (u v : List ℚ) : dot u v = dot v u := by
  induction u generalizing v with
  | nil => rw [dot_nil_left, dot_nil_right]
  | cons a u ih =>
    cases v with
    | nil => rw [dot_nil_left, dot_nil_right]
    | cons b v => rw [dot_cons, dot_cons, ih, mul_comm]

theorem dot_smul_left (c : ℚ) (u v : List ℚ) : dot (smul c u) v = c * dot u v := by
  induction u generalizing v with
  | nil => simp [smul, dot_nil_left]
  | cons a u ih =>
    cases v with
    | nil => simp [dot_nil_right]
    | cons b v => simp only [smul, List.map_cons, dot_cons] at *; rw [ih]; ring

theorem dot_smul_right (c : ℚ) (u v : List ℚ) : dot u (smul c v) = c * dot u v := by
  rw [dot_comm, dot_smul_left, dot_comm]

theorem dot_vdiv_left (u : List ℚ) (c : ℚ) (v : List ℚ) :
    dot (vdiv u c) v = dot u v / c := by
  induction u generalizing v with
  | nil => simp [vdiv, dot_nil_left]
  | cons a u ih =>
    cases v with
    | nil => simp [dot_nil_right]
    | cons b v =>
      simp only [vdiv, List.map_cons, dot_cons] at *
      rw [ih, add_div]
      ring

theorem vdiv_eq_smul (v : List ℚ) (c : ℚ) : vdiv v c = smul (1 / c) v := by
  simp only [vdiv, smul]
  exact List.map_congr_left (fun a _ => by ring)

theorem smul_vdiv (c : ℚ) (v : List ℚ) (n : ℚ) :
    smul c (vdiv v n) = smul (c / n) v := by
  simp only [vdiv, smul, List.map_map]
  exact List.map_congr_left (fun a _ => by simp [Function.comp]; ring)

theorem orthogonalize_normed (Psi : List (List ℚ)) (d : List ℚ) :
    orthogonalize Psi (Psi.map (fun Om => vdiv Om (norm2 Om))) d = gsResidual Psi d := by
  simp only [orthogonalize, gsResidual]
  have key : ∀ (P : List (List ℚ)) (acc : List ℚ),
      (P.zip (P.map (fun Om => vdiv Om (norm2 Om)))).foldl
          (fun acc pq => vsub acc (smul (dot pq.1 d) pq.2)) acc
        = P.foldl (fun acc Om => vsub acc (smul (dot Om d / norm2 Om) Om)) acc := by
    intro P
    induction P with
    | nil => intro acc; rfl
    | cons p P ih =>
      intro acc
      simp only [List.map_cons, List.zip_cons_cons, List.foldl_cons]
      rw [smul_vdiv]
      exact ih _
  exact key Psi d

theorem ComputeERR_eq_uniformERR (y : List ℚ) (Ds : List (List ℚ)) :
    ComputeERR y Ds = uniformERR y (dot y y) Ds [] 0 := by
  cases Ds with
  | nil => rfl
  | cons d0 rest =>
    show _ = uniformERR y (dot y y) (d0 :: rest) [] 0
    rw [uniformERR]
    have h01 : ¬ (1 : ℚ) ≤ 0 := by norm_num
    rw [if_neg h01]
    have hres : gsResidual [] d0 = d0 := rfl
    simp only [hres, zero_add]
    have he0 : dot (vdiv d0 (norm2 d0)) y ^ 2 * norm2 d0 / dot y y
        = (dot d0 y / norm2 d0) ^ 2 * norm2 d0 / dot y y := by
      rw [dot_vdiv_left]
    rw [ComputeERR]
    simp only [he0]
    congr 1
    have haux : ∀ (cols Psi : List (List ℚ)) (acc : ℚ),
        errAux y (dot y y) cols Psi (Psi.map (fun Om => vdiv Om (norm2 Om))) acc
          = uniformERR y (dot y y) cols Psi acc := by
      intro cols
      induction cols with
      | nil => intro Psi acc; rfl
      | cons d cs ih =>
        intro Psi acc
        rw [errAux, uniformERR]
        by_cases hacc : (1 : ℚ) ≤ acc
        · rw [if_pos hacc, if_pos hacc]
        · rw [if_neg hacc, if_neg hacc]
          simp only [orthogonalize_normed]
          have hmap : (Psi ++ [gsResidual Psi d]).map (fun Om => vdiv Om (norm2 Om))
              = Psi.map (fun Om => vdiv Om (norm2 Om)) ++ [vdiv (gsResidual Psi d) (norm2 (gsResidual Psi d))] := by
            simp
          rw [← hmap, ih]
    have h1 : [vdiv d0 (norm2 d0)] = [d0].map (fun Om => vdiv Om (norm2 Om)) := by simp
    rw [h1, haux]
    simp

-- ### Step equations for the uniform recursion

theorem uniformERR_cons_of_lt (y : List ℚ) (s2y : ℚ) (d : List ℚ) (cs Psi : List (List ℚ))
    (acc : ℚ) (h : ¬ 1 ≤ acc) :
    uniformERR y s2y (d :: cs) Psi acc
      = errEntry y s2y Psi d
        :: uniformERR y s2y cs (Psi ++ [gsResidual Psi d]) (acc + errEntry y s2y Psi d) := by
  rw [uniformERR, if_neg h]
  rfl

theorem uniformERR_cons_of_ge (y : List ℚ) (s2y : ℚ) (d : List ℚ) (cs Psi : List (List ℚ))
    (acc : ℚ) (h : 1 ≤ acc) :
    uniformERR y s2y (d :: cs) Psi acc = List.replicate (cs.length + 1) 0 := by
  rw [uniformERR, if_pos h]
  rfl

theorem uniformERR_length (y : List ℚ) (s2y : ℚ) :
    ∀ (cols Psi : List (List ℚ)) (acc : ℚ),
      (uniformERR y s2y cols Psi acc).length = cols.length := by
  intro cols
  induction cols with
  | nil => intro Psi acc; rfl
  | cons d cs ih =>
    intro Psi acc
    by_cases h : (1 : ℚ) ≤ acc
    · rw [uniformERR_cons_of_ge y s2y d cs Psi acc h]
      simp
    · rw [uniformERR_cons_of_lt y s2y d cs Psi acc h]
      simp [ih]

theorem getD_replicate_zero : ∀ (n i : ℕ), (List.replicate n (0 : ℚ)).getD i 0 = 0 := by
  intro n
  induction n with
  | zero => intro i; simp
  | succ m ih =>
    intro i
    cases i with
    | zero => simp [List.replicate]
    | succ j =>
      rw [List.replicate, List.getD_cons_succ]
      exact ih j

theorem uniformERR_saturation (y : List ℚ) (s2y : ℚ) :
    ∀ (cols Psi : List (List ℚ)) (acc : ℚ) (col i : ℕ),
      col ≤ i → i < cols.length →
      1 ≤ acc + ((uniformERR y s2y cols Psi acc).take col).sum →
      (uniformERR y s2y cols Psi acc).getD i 0 = 0 := by
  intro cols
  induction cols with
  | nil =>
    intro Psi acc col i hci hi
    simp at hi
  | cons d cs ih =>
    intro Psi acc col i hci hi hsum
    by_cases h : (1 : ℚ) ≤ acc
    · rw [uniformERR_cons_of_ge y s2y d cs Psi acc h]
      exact getD_replicate_zero _ _
    · rw [uniformERR_cons_of_lt y s2y d cs Psi acc h] at hsum ⊢
      cases col with
      | zero =>
        simp only [List.take_zero, List.sum_nil, add_zero] at hsum
        exact absurd hsum h
      | succ c =>
        cases i with
        | zero => omega
        | succ j =>
          rw [List.getD_cons_succ]
          simp only [List.take_succ_cons, List.sum_cons] at hsum
          refine ih _ _ c j (by omega) (by simpa using hi) ?_
          calc (1 : ℚ) ≤ acc + (errEntry y s2y Psi d
              + ((uniformERR y s2y cs (Psi ++ [gsResidual Psi d])
                  (acc + errEntry y s2y Psi d)).take c).sum) := hsum
            _ = acc + errEntry y s2y Psi d
              + ((uniformERR y s2y cs (Psi ++ [gsResidual Psi d])
                  (acc + errEntry y s2y Psi d)).take c).sum := by ring

theorem uniformERR_entry (y : List ℚ) (s2y : ℚ) :
    ∀ (cols Psi : List (List ℚ)) (acc : ℚ) (col : ℕ),
      col < cols.length →
      acc + ((uniformERR y s2y cols Psi acc).take col).sum < 1 →
      (uniformERR y s2y cols Psi acc).getD col 0
        = errEntry y s2y (extendBasis Psi (cols.take col)) (cols.getD col []) := by
  intro cols
  induction cols with
  | nil =>
    intro Psi acc col h
    simp at h
  | cons d cs ih =>
    intro Psi acc col hcol hlt
    by_cases h : (1 : ℚ) ≤ acc
    · rw [uniformERR_cons_of_ge y s2y d cs Psi acc h] at hlt
      have hz : ((List.replicate (cs.length + 1) (0 : ℚ)).take col).sum = 0 := by
        refine List.sum_eq_zero ?_
        intro x hx
        exact List.eq_of_mem_replicate (List.mem_of_mem_take hx)
      rw [hz, add_zero] at hlt
      exact absurd h (not_le.mpr hlt)
    · rw [uniformERR_cons_of_lt y s2y d cs Psi acc h] at hlt ⊢
      cases col with
      | zero =>
        simp [extendBasis]
      | succ c =>
        rw [List.getD_cons_succ]
        simp only [List.take_succ_cons, List.sum_cons] at hlt
        have h2 : (acc + errEntry y s2y Psi d)
            + ((uniformERR y s2y cs (Psi ++ [gsResidual Psi d])
                (acc + errEntry y s2y Psi d)).take c).sum < 1 := by
          calc (acc + errEntry y s2y Psi d)
              + ((uniformERR y s2y cs (Psi ++ [gsResidual Psi d])
                  (acc + errEntry y s2y Psi d)).take c).sum
              = acc + (errEntry y s2y Psi d
                + ((uniformERR y s2y cs (Psi ++ [gsResidual Psi d])
                    (acc + errEntry y s2y Psi d)).take c).sum) := by ring
            _ < 1 := hlt
        have hrec := ih (Psi ++ [gsResidual Psi d]) (acc + errEntry y s2y Psi d) c
          (by simpa using hcol) h2
        rw [hrec]
        have hbasis : extendBasis Psi ((d :: cs).take (c + 1))
            = extendBasis (Psi ++ [gsResidual Psi d]) (cs.take c) := by
          rw [List.take_succ_cons]
          rfl
        rw [hbasis]
        rfl

-- ### Claim theorems: C1, C2

/-- C1: every ERR entry written before saturation equals the specification's
closed formula `(Omega·y / n_Omega)² * n_Omega / s2y`, where `Omega` is the raw
column orthogonalized against the residual basis of the preceding columns
(`specBasis`), `n_Omega = ‖Omega‖²`, and `s2y = y·y`.  At `col = 0` the basis is
empty, so `Omega` is the raw column itself, showing the source's special-cased
first iteration agrees with the general formula. -/
theorem C1_err_entry_formula (y : List ℚ) (Ds : List (List ℚ)) (col : ℕ)
    (hcol : col < Ds.length)
    (hsat : ((ComputeERR y Ds).take col).sum < 1) :
    (ComputeERR y Ds).getD col 0
      = errEntry y (dot y y) (specBasis (Ds.take col)) (Ds.getD col []) := by
  rw [ComputeERR_eq_uniformERR] at hsat ⊢
  have h := uniformERR_entry y (dot y y) Ds [] 0 col hcol (by simpa using hsat)
  simpa [specBasis] using h

/-- Witness for C1 at a concrete input: `y = [1, 0, 1]`,
`Ds = [[1, 1, 0], [0, 1, 1]]`, `col = 1`. -/
theorem C1_err_entry_formula_witness :
    (ComputeERR [1, 0, 1] [[1, 1, 0], [0, 1, 1]]).getD 1 0
      = errEntry [1, 0, 1] (dot [1, 0, 1] [1, 0, 1])
          (specBasis ([[1, 1, 0], [0, 1, 1]].take 1)) ([[1, 1, 0], [0, 1, 1]].getD 1 []) :=
  C1_err_entry_formula [1, 0, 1] [[1, 1, 0], [0, 1, 1]] 1 (by decide)
    (by norm_num [ComputeERR, errAux, dot, norm2, vdiv, smul, vsub, orthogonalize])

/-- C2: for a non-empty `Ds` with `q` columns, `ComputeERR` returns a vector of
length exactly `q`, and whenever the sum of the entries of columns `0..col-1`
reaches `1`, every entry from `col` to `q-1` of the returned vector is `0`
(saturation exit; the array keeps its initial `0.0` fill).  The source indexes
column `0` unconditionally, so `Ds ≠ []` restricts to the function's domain. -/
theorem C2_length_and_saturation (y : List ℚ) (Ds : List (List ℚ)) (_hne : Ds ≠ []) :
    (ComputeERR y Ds).length = Ds.length ∧
    ∀ col i : ℕ, col ≤ i → i < Ds.length →
      1 ≤ ((ComputeERR y Ds).take col).sum →
      (ComputeERR y Ds).getD i 0 = 0 := by
  constructor
  · rw [ComputeERR_eq_uniformERR]
    exact uniformERR_length y (dot y y) Ds [] 0
  · intro col i hci hi hsum
    rw [ComputeERR_eq_uniformERR] at hsum ⊢
    refine uniformERR_saturation y (dot y y) Ds [] 0 col i hci hi ?_
    simpa using hsum

/-- Witness for C2 at a concrete input: `y = [1, 0]`,
`Ds = [[1, 0], [0, 1], [1, 1]]`; the first column already explains all variance,
so the check before column `1` saturates and entries `1` and `2` are `0`. -/
theorem C2_length_and_saturation_witness :
    (ComputeERR [1, 0] [[1, 0], [0, 1], [1, 1]]).length
        = ([[1, 0], [0, 1], [1, 1]] : List (List ℚ)).length ∧
    (ComputeERR [1, 0] [[1, 0], [0, 1], [1, 1]]).getD 1 0 = 0 ∧
    (ComputeERR [1, 0] [[1, 0], [0, 1], [1, 1]]).getD 2 0 = 0 := by
  have h := C2_length_and_saturation [1, 0] [[1, 0], [0, 1], [1, 1]] (by simp)
  have hsat : 1 ≤ ((ComputeERR [1, 0] [[1, 0], [0, 1], [1, 1]]).take 1).sum := by
    norm_num [ComputeERR, errAux, dot, norm2, vdiv, smul, vsub, orthogonalize]
  exact ⟨h.1, h.2 1 1 (by decide) (by decide) hsat, h.2 1 2 (by decide) (by decide) hsat⟩

-- ### Norms, lengths and bilinearity

theorem norm2_def (v : List ℚ) : norm2 v = dot v v := rfl

theorem norm2_cons (a : ℚ) (v : List ℚ) : norm2 (a :: v) = a * a + norm2 v := by
  simp [norm2, dot_cons]

theorem norm2_nonneg (v : List ℚ) : 0 ≤ norm2 v := by
  induction v with
  | nil => simp [norm2, dot]
  | cons a v ih =>
    rw [norm2_cons]
    nlinarith [mul_self_nonneg a]

theorem forall_zero_of_norm2_eq_zero {v : List ℚ} (h : norm2 v = 0) : ∀ a ∈ v, a = 0 := by
  induction v with
  | nil => simp
  | cons a v ih =>
    rw [norm2_cons] at h
    have ha : a * a = 0 := by nlinarith [mul_self_nonneg a, norm2_nonneg v]
    have hv : norm2 v = 0 := by nlinarith [mul_self_nonneg a, norm2_nonneg v]
    intro x hx
    rcases List.mem_cons.mp hx with rfl | hx
    · exact mul_self_eq_zero.mp ha
    · exact ih hv x hx

theorem dot_eq_zero_of_forall_zero_left {u : List ℚ} (h : ∀ a ∈ u, a = 0) (v : List ℚ) :
    dot u v = 0 := by
  induction u generalizing v with
  | nil => exact dot_nil_left v
  | cons a u ih =>
    cases v with
    | nil => exact dot_nil_right _
    | cons b v =>
      rw [dot_cons, h a (by simp), ih (fun x hx => h x (by simp [hx])) v]
      ring

theorem dot_eq_zero_of_norm2_eq_zero {u : List ℚ} (h : norm2 u = 0) (v : List ℚ) :
    dot u v = 0 :=
  dot_eq_zero_of_forall_zero_left (forall_zero_of_norm2_eq_zero h) v

theorem length_smul (c : ℚ) (v : List ℚ) : (smul c v).length = v.length := by
  simp [smul]

theorem length_vsub (u v : List ℚ) : (vsub u v).length = min u.length v.length := by
  simp [vsub]

theorem gsResidual_foldl_length {p : ℕ} (d : List ℚ) :
    ∀ (Psi : List (List ℚ)) (acc : List ℚ), (∀ Om ∈ Psi, Om.length = p) → acc.length = p →
      (Psi.foldl (fun acc Om => vsub acc (smul (dot Om d / norm2 Om) Om)) acc).length = p := by
  intro Psi
  induction Psi with
  | nil => intro acc _ h; exact h
  | cons Om P ih =>
    intro acc hP hacc
    rw [List.foldl_cons]
    refine ih _ (fun O hO => hP O (by simp [hO])) ?_
    rw [length_vsub, length_smul, hacc, hP Om (by simp)]
    simp

theorem length_gsResidual {p : ℕ} {Psi : List (List ℚ)} {d : List ℚ}
    (hP : ∀ Om ∈ Psi, Om.length = p) (hd : d.length = p) :
    (gsResidual Psi d).length = p :=
  gsResidual_foldl_length d Psi d hP hd

theorem dot_vsub_left (u v w : List ℚ) (h : u.length = v.length) :
    dot (vsub u v) w = dot u w - dot v w := by
  induction u generalizing v w with
  | nil =>
    cases v with
    | nil => simp [vsub, dot_nil_left]
    | cons b v => simp at h
  | cons a u ih =>
    cases v with
    | nil => simp at h
    | cons b v =>
      cases w with
      | nil => simp [dot_nil_right]
      | cons c w =>
        simp only [vsub, List.zipWith_cons_cons, dot_cons] at *
        rw [ih v w (by simpa using h)]
        ring

theorem dot_vsub_right (u v w : List ℚ) (h : v.length = w.length) :
    dot u (vsub v w) = dot u v - dot u w := by
  rw [dot_comm, dot_vsub_left v w u h, dot_comm v u, dot_comm w u]

theorem dot_gsResidual_foldl {p : ℕ} (d w : List ℚ) :
    ∀ (Psi : List (List ℚ)) (acc : List ℚ), (∀ Om ∈ Psi, Om.length = p) → acc.length = p →
      dot w (Psi.foldl (fun acc Om => vsub acc (smul (dot Om d / norm2 Om) Om)) acc)
        = dot w acc - (Psi.map (fun Om => dot Om d / norm2 Om * dot w Om)).sum := by
  intro Psi
  induction Psi with
  | nil => intro acc _ _; simp
  | cons Om P ih =>
    intro acc hP hacc
    have hOmLen : Om.length = p := hP Om (by simp)
    have hstep : (vsub acc (smul (dot Om d / norm2 Om) Om)).length = p := by
      rw [length_vsub, length_smul, hacc, hOmLen]
      simp
    rw [List.foldl_cons, ih _ (fun O hO => hP O (by simp [hO])) hstep]
    rw [dot_vsub_right _ _ _ (by rw [hacc, length_smul, hOmLen])]
    rw [dot_smul_right]
    simp only [List.map_cons, List.sum_cons]
    ring

theorem dot_gsResidual_eq {p : ℕ} {Psi : List (List ℚ)} {d w : List ℚ}
    (hP : ∀ Om ∈ Psi, Om.length = p) (hd : d.length = p) :
    dot w (gsResidual Psi d)
      = dot w d - (Psi.map (fun Om => dot Om d / norm2 Om * dot w Om)).sum :=
  dot_gsResidual_foldl d w Psi d hP hd

theorem dot_gsResidual_self_mem {p : ℕ} {Psi : List (List ℚ)} {d : List ℚ}
    (hP : ∀ Om ∈ Psi, Om.length = p) (hd : d.length = p)
    (horth : Psi.Pairwise (fun u v => dot u v = 0)) :
    ∀ Om ∈ Psi, dot Om (gsResidual Psi d) = 0 := by
  intro Om hOm
  by_cases hn : norm2 Om = 0
  · exact dot_eq_zero_of_norm2_eq_zero hn _
  · obtain ⟨P1, P2, hsplit⟩ := List.append_of_mem hOm
    subst hsplit
    rw [dot_gsResidual_eq hP hd]
    rw [List.pairwise_append] at horth
    obtain ⟨h1, h2, hcross⟩ := horth
    rw [List.pairwise_cons] at h2
    obtain ⟨hOmP2, _⟩ := h2
    have hsum : ((P1 ++ Om :: P2).map (fun O => dot O d / norm2 O * dot Om O)).sum
        = dot Om d := by
      rw [List.map_append, List.sum_append, List.map_cons, List.sum_cons]
      have hP1 : (P1.map (fun O => dot O d / norm2 O * dot Om O)).sum = 0 := by
        refine List.sum_eq_zero ?_
        intro x hx
        obtain ⟨O, hO, rfl⟩ := List.mem_map.mp hx
        rw [dot_comm Om O, hcross O hO Om (by simp)]
        ring
      have hP2 : (P2.map (fun O => dot O d / norm2 O * dot Om O)).sum = 0 := by
        refine List.sum_eq_zero ?_
        intro x hx
        obtain ⟨O, hO, rfl⟩ := List.mem_map.mp hx
        rw [hOmP2 O hO]
        ring
      rw [hP1, hP2, ← norm2_def, div_mul_cancel₀ _ hn]
      ring
    rw [hsum]
    ring

theorem pairwise_append_residual {Psi : List (List ℚ)} {Om : List ℚ}
    (h : Psi.Pairwise (fun u v => dot u v = 0)) (hOm : ∀ O ∈ Psi, dot O Om = 0) :
    (Psi ++ [Om]).Pairwise (fun u v => dot u v = 0) := by
  rw [List.pairwise_append]
  refine ⟨h, List.pairwise_singleton _ _, ?_⟩
  intro a ha b hb
  rw [List.mem_singleton] at hb
  subst hb
  exact hOm a ha

-- ### Bessel inequality for the accumulated residual basis

theorem norm2_gsResidual_self {p : ℕ} {Psi : List (List ℚ)} {y : List ℚ}
    (hP : ∀ Om ∈ Psi, Om.length = p) (hy : y.length = p)
    (horth : Psi.Pairwise (fun u v => dot u v = 0)) :
    norm2 (gsResidual Psi y) = norm2 y - besselSum y Psi := by
  have horthMem := dot_gsResidual_self_mem hP hy horth
  have hA : dot (gsResidual Psi y) (gsResidual Psi y)
      = dot (gsResidual Psi y) y
        - (Psi.map (fun Om => dot Om y / norm2 Om * dot (gsResidual Psi y) Om)).sum :=
    dot_gsResidual_eq hP hy
  have hzero : (Psi.map (fun Om => dot Om y / norm2 Om * dot (gsResidual Psi y) Om)).sum = 0 := by
    refine List.sum_eq_zero ?_
    intro x hx
    obtain ⟨Om, hOm, rfl⟩ := List.mem_map.mp hx
    rw [dot_comm (gsResidual Psi y) Om, horthMem Om hOm]
    ring
  have hB : dot y (gsResidual Psi y)
      = dot y y - (Psi.map (fun Om => dot Om y / norm2 Om * dot y Om)).sum :=
    dot_gsResidual_eq hP hy
  have hbes : (Psi.map (fun Om => dot Om y / norm2 Om * dot y Om)).sum = besselSum y Psi := by
    unfold besselSum
    congr 1
    refine List.map_congr_left ?_
    intro Om _
    rw [dot_comm y Om]
    ring
  rw [norm2_def, hA, hzero, sub_zero, dot_comm _ y, hB, hbes, norm2_def]

theorem besselSum_le_norm2 {p : ℕ} {Psi : List (List ℚ)} {y : List ℚ}
    (hP : ∀ Om ∈ Psi, Om.length = p) (hy : y.length = p)
    (horth : Psi.Pairwise (fun u v => dot u v = 0)) :
    besselSum y Psi ≤ norm2 y := by
  have h := norm2_gsResidual_self hP hy horth
  have hnn := norm2_nonneg (gsResidual Psi y)
  linarith

theorem besselSum_append (y : List ℚ) (Psi : List (List ℚ)) (Om : List ℚ) :
    besselSum y (Psi ++ [Om]) = besselSum y Psi + dot Om y ^ 2 / norm2 Om := by
  simp [besselSum]

theorem sq_div_mul (a n : ℚ) : (a / n) ^ 2 * n = a ^ 2 / n := by
  by_cases hn : n = 0
  · simp [hn]
  · field_simp
    ring

theorem div_mul_mul_cancel (a n s : ℚ) (hs : s ≠ 0) : a / (n * s) * s = a / n := by
  by_cases hn : n = 0
  · simp [hn]
  · field_simp
    ring

-- ### Nonnegativity and the saturation bound

theorem errEntry_nonneg {s2y : ℚ} (hs : 0 ≤ s2y) (y : List ℚ) (Psi : List (List ℚ))
    (d : List ℚ) : 0 ≤ errEntry y s2y Psi d :=
  div_nonneg (mul_nonneg (sq_nonneg _) (norm2_nonneg _)) hs

theorem uniformERR_forall_nonneg {s2y : ℚ} (hs : 0 ≤ s2y) (y : List ℚ) :
    ∀ (cols Psi : List (List ℚ)) (acc : ℚ), ∀ x ∈ uniformERR y s2y cols Psi acc, 0 ≤ x := by
  intro cols
  induction cols with
  | nil => intro Psi acc x hx; simp [uniformERR] at hx
  | cons d cs ih =>
    intro Psi acc x hx
    by_cases h : (1 : ℚ) ≤ acc
    · rw [uniformERR_cons_of_ge _ _ _ _ _ _ h] at hx
      rw [List.eq_of_mem_replicate hx]
    · rw [uniformERR_cons_of_lt _ _ _ _ _ _ h] at hx
      rcases List.mem_cons.mp hx with rfl | hx
      · exact errEntry_nonneg hs y Psi d
      · exact ih _ _ x hx

theorem computeERR_forall_nonneg (y : List ℚ) (Ds : List (List ℚ)) :
    ∀ x ∈ ComputeERR y Ds, 0 ≤ x := by
  rw [ComputeERR_eq_uniformERR]
  exact uniformERR_forall_nonneg (norm2_nonneg y) y Ds [] 0

theorem uniformERR_of_s2y_zero (y : List ℚ) :
    ∀ (cols Psi : List (List ℚ)) (acc : ℚ), ∀ x ∈ uniformERR y 0 cols Psi acc, x = 0 := by
  intro cols
  induction cols with
  | nil => intro Psi acc x hx; simp [uniformERR] at hx
  | cons d cs ih =>
    intro Psi acc x hx
    by_cases h : (1 : ℚ) ≤ acc
    · rw [uniformERR_cons_of_ge _ _ _ _ _ _ h] at hx
      exact List.eq_of_mem_replicate hx
    · rw [uniformERR_cons_of_lt _ _ _ _ _ _ h] at hx
      rcases List.mem_cons.mp hx with rfl | hx
      · simp [errEntry]
      · exact ih _ _ x hx

theorem uniformERR_sum_le {p : ℕ} {y : List ℚ} (hy : y.length = p) (hs : 0 < norm2 y) :
    ∀ (cols Psi : List (List ℚ)) (acc : ℚ),
      (∀ c ∈ cols, c.length = p) → (∀ Om ∈ Psi, Om.length = p) →
      Psi.Pairwise (fun u v => dot u v = 0) →
      acc * norm2 y = besselSum y Psi →
      acc + (uniformERR y (norm2 y) cols Psi acc).sum ≤ 1 := by
  intro cols
  induction cols with
  | nil =>
    intro Psi acc _ hP horth hbes
    have hnil : uniformERR y (norm2 y) [] Psi acc = [] := rfl
    rw [hnil, List.sum_nil, add_zero]
    have hb := besselSum_le_norm2 hP hy horth
    rw [← hbes] at hb
    nlinarith
  | cons d cs ih =>
    intro Psi acc hcols hP horth hbes
    by_cases h : (1 : ℚ) ≤ acc
    · rw [uniformERR_cons_of_ge _ _ _ _ _ _ h]
      have hb := besselSum_le_norm2 hP hy horth
      rw [← hbes] at hb
      have hreplsum : (List.replicate (cs.length + 1) (0 : ℚ)).sum = 0 := by
        simp
      rw [hreplsum, add_zero]
      nlinarith
    · rw [uniformERR_cons_of_lt _ _ _ _ _ _ h, List.sum_cons]
      have hdlen : d.length = p := hcols d (by simp)
      have hOmLen : (gsResidual Psi d).length = p := length_gsResidual hP hdlen
      have hOrthNew := dot_gsResidual_self_mem hP hdlen horth
      have hP2 : ∀ Om ∈ Psi ++ [gsResidual Psi d], Om.length = p := by
        intro Om hOm
        rcases List.mem_append.mp hOm with hOm | hOm
        · exact hP Om hOm
        · rw [List.mem_singleton] at hOm
          subst hOm
          exact hOmLen
      have horth2 := pairwise_append_residual horth hOrthNew
      have hbes2 : (acc + errEntry y (norm2 y) Psi d) * norm2 y
          = besselSum y (Psi ++ [gsResidual Psi d]) := by
        rw [besselSum_append, ← hbes]
        have he : errEntry y (norm2 y) Psi d * norm2 y
            = dot (gsResidual Psi d) y ^ 2 / norm2 (gsResidual Psi d) := by
          unfold errEntry
          rw [div_mul_cancel₀ _ (ne_of_gt hs), sq_div_mul]
        rw [add_mul, he]
      have hrec := ih (Psi ++ [gsResidual Psi d]) (acc + errEntry y (norm2 y) Psi d)
        (fun c hc => hcols c (by simp [hc])) hP2 horth2 hbes2
      linarith

-- ### Claim theorem: C3

/-- C3: for every (well-formed, non-empty) input the sum of the returned ERR
vector lies in `[0, 1]`.  Over exact rational arithmetic this holds
unconditionally: nonnegativity is entry-wise, and the upper bound is Bessel's
inequality for the pairwise-orthogonal residual basis the algorithm
accumulates, which also shows the saturation exit can only trigger when the
running sum is exactly `1`. -/
theorem C3_sum_in_unit_interval (y : List ℚ) (Ds : List (List ℚ))
    (_hne : Ds ≠ []) (hlen : ∀ c ∈ Ds, c.length = y.length) :
    0 ≤ (ComputeERR y Ds).sum ∧ (ComputeERR y Ds).sum ≤ 1 := by
  constructor
  · exact List.sum_nonneg (computeERR_forall_nonneg y Ds)
  · rcases lt_or_eq_of_le (norm2_nonneg y) with hpos | hzero
    · have hbound := uniformERR_sum_le (p := y.length) rfl hpos Ds [] 0 hlen
        (by simp) (by simp) (by simp [besselSum])
      rw [ComputeERR_eq_uniformERR]
      have hq : uniformERR y (dot y y) Ds [] 0 = uniformERR y (norm2 y) Ds [] 0 := rfl
      rw [hq]
      linarith
    · rw [ComputeERR_eq_uniformERR]
      have hq : uniformERR y (dot y y) Ds [] 0 = uniformERR y 0 Ds [] 0 := by
        rw [← norm2_def, ← hzero]
      rw [hq]
      have hall := uniformERR_of_s2y_zero y Ds [] 0
      have : (uniformERR y 0 Ds [] 0).sum = 0 := List.sum_eq_zero hall
      rw [this]
      norm_num

/-- Witness for C3 at a concrete input: `y = [1, 2, 3]`,
`Ds = [[1, 1, 0], [0, 1, 1]]`. -/
theorem C3_sum_in_unit_interval_witness :
    0 ≤ (ComputeERR [1, 2, 3] [[1, 1, 0], [0, 1, 1]]).sum ∧
      (ComputeERR [1, 2, 3] [[1, 1, 0], [0, 1, 1]]).sum ≤ 1 :=
  C3_sum_in_unit_interval [1, 2, 3] [[1, 1, 0], [0, 1, 1]] (by simp) (by simp)

-- ### Runs on matrices with pairwise-orthogonal columns (C4)

theorem vsub_zero_entries (v : List ℚ) :
    ∀ w : List ℚ, v.length = w.length → (∀ a ∈ w, a = 0) → vsub v w = v := by
  induction v with
  | nil => intro w _ _; simp [vsub]
  | cons a v ih =>
    intro w h hw
    cases w with
    | nil => simp at h
    | cons b w =>
      show (a - b) :: vsub v w = a :: v
      rw [hw b (by simp), sub_zero, ih w (by simpa using h) (fun x hx => hw x (by simp [hx]))]

theorem gsResidual_of_orth {p : ℕ} (d : List ℚ) (hd : d.length = p) :
    ∀ Psi : List (List ℚ), (∀ Om ∈ Psi, Om.length = p) → (∀ Om ∈ Psi, dot Om d = 0) →
      gsResidual Psi d = d := by
  intro Psi
  induction Psi with
  | nil => intro _ _; rfl
  | cons Om P ih =>
    intro hP horth
    have hstep : gsResidual (Om :: P) d = gsResidual P d := by
      unfold gsResidual
      rw [List.foldl_cons]
      have h1 : vsub d (smul (dot Om d / norm2 Om) Om) = d := by
        rw [horth Om (by simp), zero_div]
        refine vsub_zero_entries d _ ?_ ?_
        · rw [length_smul, hd, hP Om (by simp)]
        · intro x hx
          obtain ⟨a, _, rfl⟩ := List.mem_map.mp hx
          ring
      rw [h1]
    rw [hstep]
    exact ih (fun O hO => hP O (by simp [hO])) (fun O hO => horth O (by simp [hO]))

theorem uniformERR_orth_run {p : ℕ} {y : List ℚ} (hy : y.length = p) (hs : 0 < norm2 y) :
    ∀ (cols Psi : List (List ℚ)) (acc : ℚ),
      (∀ c ∈ cols, c.length = p) → (∀ Om ∈ Psi, Om.length = p) →
      Psi.Pairwise (fun u v => dot u v = 0) →
      cols.Pairwise (fun u v => dot u v = 0) →
      (∀ c ∈ cols, ∀ Om ∈ Psi, dot Om c = 0) →
      acc * norm2 y = besselSum y Psi →
      uniformERR y (norm2 y) cols Psi acc
        = cols.map (fun c => dot c y ^ 2 / (norm2 c * norm2 y)) := by
  intro cols
  induction cols with
  | nil => intro Psi acc _ _ _ _ _ _; rfl
  | cons d cs ih =>
    intro Psi acc hcols hP horthP horthC hcross hbes
    by_cases h : (1 : ℚ) ≤ acc
    · rw [uniformERR_cons_of_ge _ _ _ _ _ _ h]
      have hb := besselSum_le_norm2 hP hy horthP
      rw [← hbes] at hb
      have hacc1 : acc = 1 := by nlinarith
      have hfull : besselSum y Psi = norm2 y := by rw [← hbes, hacc1, one_mul]
      have hrzero : norm2 (gsResidual Psi y) = 0 := by
        rw [norm2_gsResidual_self hP hy horthP, hfull, sub_self]
      have hcy : ∀ c ∈ d :: cs, dot c y = 0 := by
        intro c hc
        have hclen : c.length = p := hcols c hc
        have h1 : dot c (gsResidual Psi y)
            = dot c y - (Psi.map (fun Om => dot Om y / norm2 Om * dot c Om)).sum :=
          dot_gsResidual_eq hP hy
        have h2 : (Psi.map (fun Om => dot Om y / norm2 Om * dot c Om)).sum = 0 := by
          refine List.sum_eq_zero ?_
          intro x hx
          obtain ⟨Om, hOm, rfl⟩ := List.mem_map.mp hx
          rw [dot_comm c Om, hcross c hc Om hOm]
          ring
        have h3 : dot c (gsResidual Psi y) = 0 := by
          rw [dot_comm]
          exact dot_eq_zero_of_forall_zero_left (forall_zero_of_norm2_eq_zero hrzero) c
        rw [h3, h2, sub_zero] at h1
        exact h1.symm
      symm
      rw [List.eq_replicate_iff]
      refine ⟨by simp, ?_⟩
      intro b hb2
      obtain ⟨c, hc, rfl⟩ := List.mem_map.mp hb2
      rw [hcy c hc]
      ring
    · rw [uniformERR_cons_of_lt _ _ _ _ _ _ h]
      have hdlen : d.length = p := hcols d (by simp)
      have hgs : gsResidual Psi d = d :=
        gsResidual_of_orth d hdlen Psi hP (fun Om hOm => hcross d (by simp) Om hOm)
      have hentry : errEntry y (norm2 y) Psi d = dot d y ^ 2 / (norm2 d * norm2 y) := by
        unfold errEntry
        rw [hgs, sq_div_mul, div_div]
      rw [List.map_cons, hentry]
      congr 1
      have horthP2 : (Psi ++ [d]).Pairwise (fun u v => dot u v = 0) :=
        pairwise_append_residual horthP (fun O hO => hcross d (by simp) O hO)
      have hP2 : ∀ Om ∈ Psi ++ [d], Om.length = p := by
        intro Om hOm
        rcases List.mem_append.mp hOm with hOm | hOm
        · exact hP Om hOm
        · rw [List.mem_singleton] at hOm
          subst hOm
          exact hdlen
      have hcross2 : ∀ c ∈ cs, ∀ Om ∈ Psi ++ [d], dot Om c = 0 := by
        intro c hc Om hOm
        rcases List.mem_append.mp hOm with hOm | hOm
        · exact hcross c (by simp [hc]) Om hOm
        · rw [List.mem_singleton] at hOm
          subst hOm
          exact (List.pairwise_cons.mp horthC).1 c hc
      have hbes2 : (acc + errEntry y (norm2 y) Psi d) * norm2 y = besselSum y (Psi ++ [d]) := by
        rw [besselSum_append, ← hbes, add_mul, hentry,
          div_mul_mul_cancel _ _ _ (ne_of_gt hs)]
      have hrec := ih (Psi ++ [d]) (acc + errEntry y (norm2 y) Psi d)
        (fun c hc => hcols c (by simp [hc])) hP2 horthP2
        (List.pairwise_cons.mp horthC).2 hcross2 hbes2
      rw [hgs]
      rw [hentry] at hrec
      exact hrec

theorem computeERR_orth_map (y : List ℚ) (Ds : List (List ℚ))
    (hlen : ∀ c ∈ Ds, c.length = y.length)
    (horth : Ds.Pairwise (fun u v => dot u v = 0)) :
    ComputeERR y Ds = Ds.map (fun c => dot c y ^ 2 / (norm2 c * dot y y)) := by
  rw [ComputeERR_eq_uniformERR]
  rcases lt_or_eq_of_le (norm2_nonneg y) with hpos | hzero
  · exact uniformERR_orth_run (p := y.length) rfl hpos Ds [] 0 hlen (by simp) (by simp)
      horth (by simp) (by simp [besselSum])
  · have hq : uniformERR y (dot y y) Ds [] 0 = uniformERR y 0 Ds [] 0 := by
      rw [← norm2_def, ← hzero]
    rw [hq]
    have hrhs : Ds.map (fun c => dot c y ^ 2 / (norm2 c * dot y y))
        = List.replicate Ds.length 0 := by
      rw [List.eq_replicate_iff]
      refine ⟨by simp, ?_⟩
      intro b hb
      obtain ⟨c, _, rfl⟩ := List.mem_map.mp hb
      rw [← norm2_def, ← hzero, mul_zero, div_zero]
    rw [hrhs, List.eq_replicate_iff]
    exact ⟨uniformERR_length _ _ _ _ _, uniformERR_of_s2y_zero y Ds [] 0⟩

-- ### Claim theorem: C4

/-- C4: on a matrix with pairwise-orthogonal, nonzero-norm columns every ERR
entry is `(column·y)² / (‖column‖² · (y·y))` for its own column, so the ERR
vector is the column-wise map of that formula; consequently permuting the
columns permutes the ERR entries identically, and the returned values form the
same multiset. -/
theorem C4_orthogonal_independence (y : List ℚ) (Ds : List (List ℚ))
    (_hne : Ds ≠ []) (hlen : ∀ c ∈ Ds, c.length = y.length)
    (horth : Ds.Pairwise (fun u v => dot u v = 0))
    (_hnz : ∀ c ∈ Ds, norm2 c ≠ 0) :
    ComputeERR y Ds = Ds.map (fun c => dot c y ^ 2 / (norm2 c * dot y y)) ∧
    ∀ Ds2 : List (List ℚ), Ds.Perm Ds2 →
      ComputeERR y Ds2 = Ds2.map (fun c => dot c y ^ 2 / (norm2 c * dot y y)) ∧
      (ComputeERR y Ds).Perm (ComputeERR y Ds2) := by
  have hsymm : Symmetric (fun u v : List ℚ => dot u v = 0) := by
    intro u v h
    rw [dot_comm]
    exact h
  constructor
  · exact computeERR_orth_map y Ds hlen horth
  · intro Ds2 hperm
    have hlen2 : ∀ c ∈ Ds2, c.length = y.length := fun c hc => hlen c (hperm.mem_iff.mpr hc)
    have horth2 : Ds2.Pairwise (fun u v => dot u v = 0) :=
      (hperm.pairwise_iff (fun hxy => hsymm hxy)).mp horth
    have hmap2 := computeERR_orth_map y Ds2 hlen2 horth2
    refine ⟨hmap2, ?_⟩
    rw [computeERR_orth_map y Ds hlen horth, hmap2]
    exact hperm.map _

/-- Witness for C4 at a concrete input: `y = [1, 2, 3]` with the orthogonal
columns `[1, 1, 1]` and `[1, -1, 0]`, and their transposition. -/
theorem C4_orthogonal_independence_witness :
    ComputeERR [1, 2, 3] [[1, 1, 1], [1, -1, 0]]
        = [[1, 1, 1], [1, -1, 0]].map
            (fun c => dot c [1, 2, 3] ^ 2 / (norm2 c * dot [1, 2, 3] [1, 2, 3])) ∧
    ComputeERR [1, 2, 3] [[1, -1, 0], [1, 1, 1]]
        = [[1, -1, 0], [1, 1, 1]].map
            (fun c => dot c [1, 2, 3] ^ 2 / (norm2 c * dot [1, 2, 3] [1, 2, 3])) := by
  have h := C4_orthogonal_independence [1, 2, 3] [[1, 1, 1], [1, -1, 0]]
    (by simp) (by simp)
    (by norm_num [List.pairwise_cons, dot])
    (by norm_num [norm2, dot])
  exact ⟨h.1, (h.2 [[1, -1, 0], [1, 1, 1]] (List.Perm.swap [1, -1, 0] [1, 1, 1] [])).1⟩

-- ### Scale invariance (C5)

theorem smul_smul_vec (a b : ℚ) (v : List ℚ) : smul a (smul b v) = smul (a * b) v := by
  simp only [smul, List.map_map]
  exact List.map_congr_left (fun x _ => by simp [Function.comp]; ring)

theorem smul_one_vec (v : List ℚ) : smul 1 v = v := by
  simp [smul]

theorem norm2_smul (t : ℚ) (v : List ℚ) : norm2 (smul t v) = t ^ 2 * norm2 v := by
  rw [norm2_def, dot_smul_left, dot_smul_right, norm2_def]
  ring

theorem smul_vsub (t : ℚ) (u : List ℚ) :
    ∀ v : List ℚ, vsub (smul t u) (smul t v) = smul t (vsub u v) := by
  induction u with
  | nil => intro v; simp [vsub, smul]
  | cons a u ih =>
    intro v
    cases v with
    | nil => simp [vsub, smul]
    | cons b v =>
      show (t * a - t * b) :: vsub (smul t u) (smul t v) = t * (a - b) :: smul t (vsub u v)
      rw [ih v]
      congr 1
      ring

theorem entry_scaled_col (t a n : ℚ) (ht : t ≠ 0) :
    (t * a / (t ^ 2 * n)) ^ 2 * (t ^ 2 * n) = (a / n) ^ 2 * n := by
  by_cases hn : n = 0
  · simp [hn]
  · field_simp
    ring

theorem entry_scaled_y (c a n s : ℚ) (hc : c ≠ 0) :
    (c * a / n) ^ 2 * n / (c ^ 2 * s) = (a / n) ^ 2 * n / s := by
  by_cases hs : s = 0
  · simp [hs]
  · by_cases hn : n = 0
    · simp [hn]
    · field_simp
      ring

theorem coeff_scaled (t a n : ℚ) (ht : t ≠ 0) : t * a / (t ^ 2 * n) * t = a / n := by
  by_cases hn : n = 0
  · simp [hn]
  · field_simp
    ring

theorem proj_term_scaled (t : ℚ) (ht : t ≠ 0) (Om d : List ℚ) :
    smul (dot (smul t Om) d / norm2 (smul t Om)) (smul t Om)
      = smul (dot Om d / norm2 Om) Om := by
  rw [dot_smul_left, norm2_smul, smul_smul_vec, coeff_scaled _ _ _ ht]

theorem gsResidual_scaled_foldl (d : List ℚ) :
    ∀ {Psi Psi2 : List (List ℚ)},
      List.Forall₂ (fun Om Om2 => ∃ t : ℚ, t ≠ 0 ∧ Om2 = smul t Om) Psi Psi2 →
      ∀ acc : List ℚ,
      Psi2.foldl (fun acc Om => vsub acc (smul (dot Om d / norm2 Om) Om)) acc
        = Psi.foldl (fun acc Om => vsub acc (smul (dot Om d / norm2 Om) Om)) acc := by
  intro Psi Psi2 hrel
  induction hrel with
  | nil => intro acc; rfl
  | cons h1 _ ih =>
    intro acc
    obtain ⟨t, ht, rfl⟩ := h1
    rw [List.foldl_cons, List.foldl_cons, proj_term_scaled t ht]
    exact ih _

theorem gsResidual_scaled {Psi Psi2 : List (List ℚ)} (d : List ℚ)
    (hrel : List.Forall₂ (fun Om Om2 => ∃ t : ℚ, t ≠ 0 ∧ Om2 = smul t Om) Psi Psi2) :
    gsResidual Psi2 d = gsResidual Psi d :=
  gsResidual_scaled_foldl d hrel d

theorem gsResidual_smul_foldl (t : ℚ) (d : List ℚ) :
    ∀ (Psi : List (List ℚ)) (acc : List ℚ),
      Psi.foldl (fun acc Om => vsub acc (smul (dot Om (smul t d) / norm2 Om) Om)) (smul t acc)
        = smul t (Psi.foldl (fun acc Om => vsub acc (smul (dot Om d / norm2 Om) Om)) acc) := by
  intro Psi
  induction Psi with
  | nil => intro acc; rfl
  | cons Om P ih =>
    intro acc
    rw [List.foldl_cons, List.foldl_cons]
    have hstep : vsub (smul t acc) (smul (dot Om (smul t d) / norm2 Om) Om)
        = smul t (vsub acc (smul (dot Om d / norm2 Om) Om)) := by
      rw [dot_smul_right, mul_div_assoc, ← smul_smul_vec t (dot Om d / norm2 Om) Om]
      exact smul_vsub t acc _
    rw [hstep]
    exact ih _

theorem gsResidual_smul (t : ℚ) (Psi : List (List ℚ)) (d : List ℚ) :
    gsResidual Psi (smul t d) = smul t (gsResidual Psi d) :=
  gsResidual_smul_foldl t d Psi d

theorem forall₂_append_single {R : List ℚ → List ℚ → Prop} :
    ∀ {l1 l2 : List (List ℚ)}, List.Forall₂ R l1 l2 → ∀ {a b : List ℚ}, R a b →
      List.Forall₂ R (l1 ++ [a]) (l2 ++ [b]) := by
  intro l1 l2 h
  induction h with
  | nil => intro a b hab; exact List.Forall₂.cons hab List.Forall₂.nil
  | cons h1 _ ih => intro a b hab; exact List.Forall₂.cons h1 (ih hab)

theorem uniformERR_scaled_basis (y : List ℚ) (s2y : ℚ) :
    ∀ (cols : List (List ℚ)) {Psi Psi2 : List (List ℚ)} (acc : ℚ),
      List.Forall₂ (fun Om Om2 => ∃ t : ℚ, t ≠ 0 ∧ Om2 = smul t Om) Psi Psi2 →
      uniformERR y s2y cols Psi2 acc = uniformERR y s2y cols Psi acc := by
  intro cols
  induction cols with
  | nil => intro Psi Psi2 acc _; rfl
  | cons d cs ih =>
    intro Psi Psi2 acc hrel
    by_cases h : (1 : ℚ) ≤ acc
    · rw [uniformERR_cons_of_ge _ _ _ _ _ _ h, uniformERR_cons_of_ge _ _ _ _ _ _ h]
    · rw [uniformERR_cons_of_lt _ _ _ _ _ _ h, uniformERR_cons_of_lt _ _ _ _ _ _ h]
      have hgs : gsResidual Psi2 d = gsResidual Psi d := gsResidual_scaled d hrel
      have hent : errEntry y s2y Psi2 d = errEntry y s2y Psi d := by
        unfold errEntry
        rw [hgs]
      rw [hent, hgs]
      congr 1
      exact ih _ (forall₂_append_single hrel ⟨1, one_ne_zero, (smul_one_vec _).symm⟩)

theorem uniformERR_scale_col (y : List ℚ) (s2y : ℚ) (t : ℚ) (ht : t ≠ 0) :
    ∀ (pre : List (List ℚ)) (d : List ℚ) (post : List (List ℚ))
      {Psi Psi2 : List (List ℚ)} (acc : ℚ),
      List.Forall₂ (fun Om Om2 => ∃ s : ℚ, s ≠ 0 ∧ Om2 = smul s Om) Psi Psi2 →
      uniformERR y s2y (pre ++ smul t d :: post) Psi2 acc
        = uniformERR y s2y (pre ++ d :: post) Psi acc := by
  intro pre
  induction pre with
  | nil =>
    intro d post Psi Psi2 acc hrel
    simp only [List.nil_append]
    by_cases h : (1 : ℚ) ≤ acc
    · rw [uniformERR_cons_of_ge _ _ _ _ _ _ h, uniformERR_cons_of_ge _ _ _ _ _ _ h]
    · rw [uniformERR_cons_of_lt _ _ _ _ _ _ h, uniformERR_cons_of_lt _ _ _ _ _ _ h]
      have hOm : gsResidual Psi2 (smul t d) = smul t (gsResidual Psi d) := by
        rw [gsResidual_smul, gsResidual_scaled d hrel]
      have hent : errEntry y s2y Psi2 (smul t d) = errEntry y s2y Psi d := by
        unfold errEntry
        rw [hOm, dot_smul_left, norm2_smul]
        rw [entry_scaled_col _ _ _ ht]
      rw [hent]
      congr 1
      refine uniformERR_scaled_basis y s2y post _ ?_
      refine forall₂_append_single hrel ?_
      exact ⟨t, ht, hOm⟩
  | cons d0 pre ih =>
    intro d post Psi Psi2 acc hrel
    simp only [List.cons_append]
    by_cases h : (1 : ℚ) ≤ acc
    · rw [uniformERR_cons_of_ge _ _ _ _ _ _ h, uniformERR_cons_of_ge _ _ _ _ _ _ h]
      simp [List.length_append]
    · rw [uniformERR_cons_of_lt _ _ _ _ _ _ h, uniformERR_cons_of_lt _ _ _ _ _ _ h]
      have hgs : gsResidual Psi2 d0 = gsResidual Psi d0 := gsResidual_scaled d0 hrel
      have hent : errEntry y s2y Psi2 d0 = errEntry y s2y Psi d0 := by
        unfold errEntry
        rw [hgs]
      rw [hent, hgs]
      congr 1
      exact ih d post _ (forall₂_append_single hrel ⟨1, one_ne_zero, (smul_one_vec _).symm⟩)

theorem uniformERR_smul_y (c : ℚ) (hc : c ≠ 0) (y : List ℚ) (s2y : ℚ) :
    ∀ (cols Psi : List (List ℚ)) (acc : ℚ),
      uniformERR (smul c y) (c ^ 2 * s2y) cols Psi acc = uniformERR y s2y cols Psi acc := by
  intro cols
  induction cols with
  | nil => intro Psi acc; rfl
  | cons d cs ih =>
    intro Psi acc
    by_cases h : (1 : ℚ) ≤ acc
    · rw [uniformERR_cons_of_ge _ _ _ _ _ _ h, uniformERR_cons_of_ge _ _ _ _ _ _ h]
    · rw [uniformERR_cons_of_lt _ _ _ _ _ _ h, uniformERR_cons_of_lt _ _ _ _ _ _ h]
      have hent : errEntry (smul c y) (c ^ 2 * s2y) Psi d = errEntry y s2y Psi d := by
        unfold errEntry
        rw [dot_smul_right, entry_scaled_y _ _ _ _ hc]
      rw [hent]
      congr 1
      exact ih _ _

-- ### Claim theorem: C5

/-- C5: the returned ERR vector is unchanged when `y` is replaced by `c·y` for
any nonzero scalar `c`, and likewise when any single regressor column of `Ds`
is replaced by `c` times itself — the quadratic scaling of the numerator is
cancelled by the norm factors of the quotient. -/
theorem C5_scale_invariance (y : List ℚ) (Ds : List (List ℚ)) (c : ℚ) (hc : c ≠ 0) :
    ComputeERR (smul c y) Ds = ComputeERR y Ds ∧
    ∀ j : ℕ, j < Ds.length →
      ComputeERR y (Ds.set j (smul c (Ds.getD j []))) = ComputeERR y Ds := by
  constructor
  · rw [ComputeERR_eq_uniformERR, ComputeERR_eq_uniformERR]
    have hdot : dot (smul c y) (smul c y) = c ^ 2 * dot y y := by
      rw [dot_smul_left, dot_smul_right]
      ring
    rw [hdot]
    exact uniformERR_smul_y c hc y (dot y y) Ds [] 0
  · intro j hj
    rw [ComputeERR_eq_uniformERR, ComputeERR_eq_uniformERR]
    have hgetD : Ds.getD j [] = Ds[j] := by
      rw [List.getD_eq_getElem?_getD, List.getElem?_eq_getElem hj]
      rfl
    rw [List.set_eq_take_cons_drop _ hj]
    have hsplit : Ds = Ds.take j ++ Ds.getD j [] :: Ds.drop (j + 1) := by
      conv_lhs => rw [← List.take_append_drop j Ds]
      rw [List.drop_eq_getElem_cons hj, hgetD]
    conv_rhs => rw [hsplit]
    exact uniformERR_scale_col y (dot y y) c hc (Ds.take j) (Ds.getD j [])
      (Ds.drop (j + 1)) 0 List.Forall₂.nil

/-- Witness for C5 at a concrete input: `c = 2`, `y = [1, 2]`,
`Ds = [[1, 0], [1, 1]]`, scaled column `j = 0`. -/
theorem C5_scale_invariance_witness :
    ComputeERR (smul 2 [1, 2]) [[1, 0], [1, 1]] = ComputeERR [1, 2] [[1, 0], [1, 1]] ∧
    ComputeERR [1, 2] (([[1, 0], [1, 1]] : List (List ℚ)).set 0
        (smul 2 (([[1, 0], [1, 1]] : List (List ℚ)).getD 0 [])))
      = ComputeERR [1, 2] [[1, 0], [1, 1]] := by
  have h := C5_scale_invariance [1, 2] [[1, 0], [1, 1]] 2 (by norm_num)
  exact ⟨h.1, h.2 0 (by decide)⟩

-- ### Order search (C6)

theorem orderGo_zero (f : ℕ → ℚ) (thr : ℚ) (k : ℕ) (vs : List ℚ) :
    orderGo f thr k 0 vs = (k, vs ++ [min 1 (f k)]) := rfl

theorem orderGo_succ_of_ge (f : ℕ → ℚ) (thr : ℚ) (k c : ℕ) (vs : List ℚ)
    (h : thr ≤ min 1 (f k)) :
    orderGo f thr k (c + 1) vs = (k, vs ++ [min 1 (f k)]) := by
  rw [orderGo, if_pos h]

theorem orderGo_succ_of_lt (f : ℕ → ℚ) (thr : ℚ) (k c : ℕ) (vs : List ℚ)
    (h : ¬ thr ≤ min 1 (f k)) :
    orderGo f thr k (c + 1) vs = orderGo f thr (k + 1) c (vs ++ [min 1 (f k)]) := by
  rw [orderGo, if_neg h]

theorem orderGo_spec (f : ℕ → ℚ) (thr : ℚ) :
    ∀ (countdown k : ℕ) (vs : List ℚ),
      k ≤ (orderGo f thr k countdown vs).1 ∧
      (orderGo f thr k countdown vs).1 ≤ k + countdown ∧
      (∀ j, k ≤ j → j < (orderGo f thr k countdown vs).1 → min 1 (f j) < thr) ∧
      (thr ≤ min 1 (f (orderGo f thr k countdown vs).1) ∨
        ((orderGo f thr k countdown vs).1 = k + countdown ∧ min 1 (f (k + countdown)) < thr)) ∧
      (orderGo f thr k countdown vs).2
        = vs ++ (List.range' k ((orderGo f thr k countdown vs).1 - k + 1)).map
            (fun j => min 1 (f j)) := by
  intro countdown
  induction countdown with
  | zero =>
    intro k vs
    rw [orderGo_zero]
    refine ⟨le_refl k, by omega, fun j h1 h2 => absurd h1 (by omega), ?_, ?_⟩
    · by_cases h : thr ≤ min 1 (f k)
      · left
        exact h
      · right
        exact ⟨by omega, not_le.mp h⟩
    · have hk : k - k + 1 = 1 := by omega
      rw [hk]
      simp [List.range'_one]
  | succ c ih =>
    intro k vs
    by_cases h : thr ≤ min 1 (f k)
    · rw [orderGo_succ_of_ge _ _ _ _ _ h]
      refine ⟨le_refl k, by omega, fun j h1 h2 => absurd h1 (by omega), Or.inl h, ?_⟩
      have hk : k - k + 1 = 1 := by omega
      rw [hk]
      simp [List.range'_one]
    · rw [orderGo_succ_of_lt _ _ _ _ _ h]
      obtain ⟨ih1, ih2, ih3, ih4, ih5⟩ := ih (k + 1) (vs ++ [min 1 (f k)])
      refine ⟨by omega, by omega, ?_, ?_, ?_⟩
      · intro j hj1 hj2
        rcases Nat.eq_or_lt_of_le hj1 with rfl | hj1s
        · exact not_le.mp h
        · exact ih3 j (by omega) hj2
      · rcases ih4 with h4 | ⟨h4a, h4b⟩
        · left
          exact h4
        · right
          refine ⟨by omega, ?_⟩
          rw [show k + (c + 1) = k + 1 + c by omega]
          exact h4b
      · rw [ih5]
        have h1 : (orderGo f thr (k + 1) c (vs ++ [min 1 (f k)])).1 - k + 1
            = ((orderGo f thr (k + 1) c (vs ++ [min 1 (f k)])).1 - (k + 1) + 1) + 1 := by
          omega
        rw [h1]
        conv_rhs => rw [List.range'_succ]
        simp

-- ### Claim theorem: C6

/-- C6: for `MaxOrder ≥ 1` (enforced by the source's assertion), the estimator
returns the smallest order in `1..MaxOrder` whose clipped explained variance
`min(1, ΣERR)` reaches the threshold — or `MaxOrder` when no order reaches
it — together with the per-order variance sequence `0` (the order-0 constant
model) followed by one `min(1, ΣERR)` entry for each evaluated order
`1..chosen`. -/
theorem C6_expansion_order (y_cut : List ℚ) (Expand : ℕ → List (List ℚ))
    (maxOrder : ℕ) (thr : ℚ) (hmax : 1 ≤ maxOrder) (chosen : ℕ) (vs : List ℚ)
    (hrun : ExpansionOrderEstimator y_cut Expand maxOrder thr = (chosen, vs)) :
    (1 ≤ chosen ∧ chosen ≤ maxOrder) ∧
    (∀ j, 1 ≤ j → j < chosen →
      min 1 ((ComputeERR (centerVec y_cut) (centerCols (Expand j))).sum) < thr) ∧
    (thr ≤ min 1 ((ComputeERR (centerVec y_cut) (centerCols (Expand chosen))).sum) ∨
      (chosen = maxOrder ∧
        min 1 ((ComputeERR (centerVec y_cut) (centerCols (Expand maxOrder))).sum) < thr)) ∧
    vs = 0 :: (List.range' 1 chosen).map
        (fun k => min 1 ((ComputeERR (centerVec y_cut) (centerCols (Expand k))).sum)) := by
  have hspec := orderGo_spec
    (fun k => (ComputeERR (centerVec y_cut) (centerCols (Expand k))).sum) thr
    (maxOrder - 1) 1 [0]
  rw [ExpansionOrderEstimator] at hrun
  rw [hrun] at hspec
  dsimp only at hspec
  obtain ⟨h1, h2, h3, h4, h5⟩ := hspec
  have hplus : 1 + (maxOrder - 1) = maxOrder := by omega
  rw [hplus] at h2 h4
  refine ⟨⟨h1, h2⟩, h3, h4, ?_⟩
  have hc : chosen - 1 + 1 = chosen := by omega
  rw [h5, hc]
  rfl

/-- Witness for C6 at a concrete input: `y_cut = [1, 2]`, the expander returns
`[[1, 1]]` at every order, `maxOrder = 2`, threshold `1/2`; the run evaluates
order 1 and order 2 without meeting the threshold, returning order 2. -/
theorem C6_expansion_order_witness :
    (1 ≤ (ExpansionOrderEstimator [1, 2] (fun _ => [[1, 1]]) 2 (1 / 2)).1 ∧
      (ExpansionOrderEstimator [1, 2] (fun _ => [[1, 1]]) 2 (1 / 2)).1 ≤ 2) ∧
    (ExpansionOrderEstimator [1, 2] (fun _ => [[1, 1]]) 2 (1 / 2)).2
      = 0 :: (List.range' 1 (ExpansionOrderEstimator [1, 2] (fun _ => [[1, 1]]) 2 (1 / 2)).1).map
          (fun k => min 1 ((ComputeERR (centerVec [1, 2])
            (centerCols ((fun _ : ℕ => ([[1, 1]] : List (List ℚ))) k))).sum)) := by
  have h := C6_expansion_order [1, 2] (fun _ => [[1, 1]]) 2 (1 / 2) (by decide)
    (ExpansionOrderEstimator [1, 2] (fun _ => [[1, 1]]) 2 (1 / 2)).1
    (ExpansionOrderEstimator [1, 2] (fun _ => [[1, 1]]) 2 (1 / 2)).2 rfl
  exact ⟨h.1, h.2.2.2⟩

-- ### Lag grid: the sentinel fill equals the closed recursion

theorem gridVal_zero (cell : ℕ → ℕ → ℚ) (nb : ℕ) : gridVal cell 0 nb = cell 0 nb := by
  rw [gridVal]

theorem gridVal_succ_zero (cell : ℕ → ℕ → ℚ) (na : ℕ) :
    gridVal cell (na + 1) 0 = cell (na + 1) 0 := by
  rw [gridVal]

theorem gridVal_succ_succ (cell : ℕ → ℕ → ℚ) (na nb : ℕ) :
    gridVal cell (na + 1) (nb + 1)
      = if gridVal cell na (nb + 1) = 1 ∧ gridVal cell (na + 1) nb = 1 then 1
        else cell (na + 1) (nb + 1) := by
  rw [gridVal]

theorem getD_map_range (F : ℕ → List ℚ) (n i : ℕ) (h : i < n) (d : List ℚ) :
    ((List.range n).map F).getD i d = F i := by
  rw [List.getD_eq_getElem?_getD, List.getElem?_map, List.getElem?_range h]
  rfl

theorem getD_map_range_q (F : ℕ → ℚ) (n i : ℕ) (h : i < n) (d : ℚ) :
    ((List.range n).map F).getD i d = F i := by
  rw [List.getD_eq_getElem?_getD, List.getElem?_map, List.getElem?_range h]
  rfl

theorem getElem?_map_range_q (F : ℕ → ℚ) (n i : ℕ) (h : i < n) :
    ((List.range n).map F)[i]? = some (F i) := by
  rw [List.getElem?_map, List.getElem?_range h]
  rfl

theorem getElem?_map_range_len (F : ℕ → ℚ) (n : ℕ) :
    ((List.range n).map F)[n]? = none := by
  rw [List.getElem?_eq_none]
  simp

theorem fillCell_eq_gridVal (cell : ℕ → ℕ → ℚ) (w na nb : ℕ) (hnb : nb < w) :
    fillCell cell ((List.range na).map (fun r => (List.range w).map (gridVal cell r)))
      ((List.range nb).map (gridVal cell na)) na nb = gridVal cell na nb := by
  have hRlen : ((List.range na).map (fun r => (List.range w).map (gridVal cell r))).length
      = na := by simp
  cases na with
  | zero =>
    have hA : lookupCell ((List.range 0).map (fun r => (List.range w).map (gridVal cell r)))
        ((List.range nb).map (gridVal cell 0)) (0 - 1) nb = none := by
      unfold lookupCell
      rw [hRlen, if_neg (by omega), if_pos (by omega)]
      exact getElem?_map_range_len _ _
    unfold fillCell
    rw [hA, if_neg (fun hcon => Option.noConfusion hcon.1), gridVal_zero]
  | succ m =>
    have hA : lookupCell
        ((List.range (m + 1)).map (fun r => (List.range w).map (gridVal cell r)))
        ((List.range nb).map (gridVal cell (m + 1))) (m + 1 - 1) nb
        = some (gridVal cell m nb) := by
      unfold lookupCell
      rw [hRlen, Nat.succ_sub_one, if_pos (by omega)]
      rw [getD_map_range (fun r => (List.range w).map (gridVal cell r)) (m + 1) m (by omega)]
      exact getElem?_map_range_q (gridVal cell m) w nb hnb
    have hB : lookupCell
        ((List.range (m + 1)).map (fun r => (List.range w).map (gridVal cell r)))
        ((List.range nb).map (gridVal cell (m + 1))) (m + 1) (nb - 1)
        = ((List.range nb).map (gridVal cell (m + 1)))[nb - 1]? := by
      unfold lookupCell
      rw [hRlen, if_neg (by omega), if_pos rfl]
    cases nb with
    | zero =>
      have hB0 : ((List.range 0).map (gridVal cell (m + 1)))[(0 : ℕ) - 1]? = none := by
        simp
      unfold fillCell
      rw [hB, hB0, if_neg (fun hcon => Option.noConfusion hcon.2), gridVal_succ_zero]
    | succ j =>
      have hBj : ((List.range (j + 1)).map (gridVal cell (m + 1)))[j + 1 - 1]?
          = some (gridVal cell (m + 1) j) := by
        rw [Nat.succ_sub_one]
        exact getElem?_map_range_q (gridVal cell (m + 1)) (j + 1) j (by omega)
      unfold fillCell
      rw [hA, hB, hBj, gridVal_succ_succ]
      by_cases hc : gridVal cell m (j + 1) = 1 ∧ gridVal cell (m + 1) j = 1
      · rw [if_pos hc, if_pos ⟨by rw [hc.1], by rw [hc.2]⟩]
      · rw [if_neg hc, if_neg ?_]
        intro hcon
        exact hc ⟨Option.some_injective _ hcon.1, Option.some_injective _ hcon.2⟩

theorem fillRowGo_eq (cell : ℕ → ℕ → ℚ) (w na : ℕ) :
    ∀ (cnt nb : ℕ), nb + cnt = w →
      fillRowGo cell ((List.range na).map (fun r => (List.range w).map (gridVal cell r))) cnt
        ((List.range nb).map (gridVal cell na))
        = (List.range w).map (gridVal cell na) := by
  intro cnt
  induction cnt with
  | zero =>
    intro nb hnb
    rw [fillRowGo]
    rw [show nb = w by omega]
  | succ c ih =>
    intro nb hnb
    rw [fillRowGo]
    have hlen : ((List.range nb).map (gridVal cell na)).length = nb := by simp
    have hlen2 : ((List.range na).map (fun r => (List.range w).map (gridVal cell r))).length
        = na := by simp
    rw [hlen, hlen2, fillCell_eq_gridVal cell w na nb (by omega)]
    have happ : (List.range nb).map (gridVal cell na) ++ [gridVal cell na nb]
        = (List.range (nb + 1)).map (gridVal cell na) := by
      rw [List.range_succ, List.map_append]
      rfl
    rw [happ]
    exact ih (nb + 1) (by omega)

theorem fillGridGo_eq (cell : ℕ → ℕ → ℚ) (w h : ℕ) :
    ∀ (cnt na : ℕ), na + cnt = h →
      fillGridGo cell w cnt ((List.range na).map (fun r => (List.range w).map (gridVal cell r)))
        = (List.range h).map (fun r => (List.range w).map (gridVal cell r)) := by
  intro cnt
  induction cnt with
  | zero =>
    intro na hna
    rw [fillGridGo]
    rw [show na = h by omega]
  | succ c ih =>
    intro na hna
    rw [fillGridGo]
    have hrow : fillRowGo cell
        ((List.range na).map (fun r => (List.range w).map (gridVal cell r))) w []
        = (List.range w).map (gridVal cell na) := by
      have h0 : ([] : List ℚ) = (List.range 0).map (gridVal cell na) := rfl
      rw [h0]
      exact fillRowGo_eq cell w na w 0 (by omega)
    rw [hrow]
    have happ : (List.range na).map (fun r => (List.range w).map (gridVal cell r))
          ++ [(List.range w).map (gridVal cell na)]
        = (List.range (na + 1)).map (fun r => (List.range w).map (gridVal cell r)) := by
      rw [List.range_succ, List.map_append]
      rfl
    rw [happ]
    exact ih (na + 1) (by omega)

theorem fillGrid_eq (cell : ℕ → ℕ → ℚ) (h w : ℕ) :
    fillGrid cell h w
      = (List.range h).map (fun na => (List.range w).map (gridVal cell na)) := by
  unfold fillGrid
  have h0 : ([] : List (List ℚ))
      = (List.range 0).map (fun r => (List.range w).map (gridVal cell r)) := rfl
  rw [h0]
  exact fillGridGo_eq cell w h h 0 (by omega)

theorem fillGrid_length (cell : ℕ → ℕ → ℚ) (h w : ℕ) : (fillGrid cell h w).length = h := by
  rw [fillGrid_eq]
  simp

theorem fillGrid_row_length (cell : ℕ → ℕ → ℚ) (h w : ℕ) :
    ∀ row ∈ fillGrid cell h w, row.length = w := by
  rw [fillGrid_eq]
  intro row hrow
  obtain ⟨na, _, rfl⟩ := List.mem_map.mp hrow
  simp

theorem gridEntry_fillGrid (cell : ℕ → ℕ → ℚ) (h w na nb : ℕ) (hna : na < h) (hnb : nb < w) :
    gridEntry (fillGrid cell h w) na nb = gridVal cell na nb := by
  unfold gridEntry
  rw [fillGrid_eq, getD_map_range _ h na hna, getD_map_range_q _ w nb hnb]

theorem gridVal_eq_one_or_cell (cell : ℕ → ℕ → ℚ) (na nb : ℕ) :
    gridVal cell na nb = 1 ∨ gridVal cell na nb = cell na nb := by
  match na, nb with
  | 0, nb =>
    right
    rw [gridVal_zero]
  | na + 1, 0 =>
    right
    rw [gridVal_succ_zero]
  | na + 1, nb + 1 =>
    rw [gridVal_succ_succ]
    by_cases h : gridVal cell na (nb + 1) = 1 ∧ gridVal cell (na + 1) nb = 1
    · left
      rw [if_pos h]
    · right
      rw [if_neg h]

theorem cellValue_nonneg (Lag : ℕ → ℕ → List ℚ × List (List ℚ))
    (Exp : List (List ℚ) → ℕ → List (List ℚ)) (order na nb : ℕ) :
    0 ≤ cellValue Lag Exp order na nb := by
  unfold cellValue
  refine le_min (by norm_num) ?_
  exact List.sum_nonneg (computeERR_forall_nonneg _ _)

theorem cellValue_le_one (Lag : ℕ → ℕ → List ℚ × List (List ℚ))
    (Exp : List (List ℚ) → ℕ → List (List ℚ)) (order na nb : ℕ) :
    cellValue Lag Exp order na nb ≤ 1 :=
  min_le_left _ _

-- ### Recommendation scans when no cell exceeds the threshold

theorem minXYGo_no_update (grid : List (List ℚ)) (thr : ℚ) :
    ∀ (pairs : List (ℕ × ℕ)) (best : Option ℕ) (rec : ℕ × ℕ),
      (∀ p ∈ pairs, ¬ thr < gridEntry grid p.1 p.2) →
      minXYGo grid thr pairs best rec = rec := by
  intro pairs
  induction pairs with
  | nil => intro best rec _; rfl
  | cons p rest ih =>
    intro best rec hall
    rw [minXYGo, if_neg (fun hcon => hall p (by simp) hcon.1)]
    exact ih best rec (fun q hq => hall q (by simp [hq]))

theorem firstTrueIdxGo_all_false (p : ℚ → Bool) :
    ∀ (l : List ℚ) (i : ℕ), (∀ a ∈ l, p a = false) → firstTrueIdxGo p l i = 0 := by
  intro l
  induction l with
  | nil => intro i _; rfl
  | cons a t ih =>
    intro i hall
    rw [firstTrueIdxGo, hall a (by simp), if_neg Bool.false_ne_true]
    exact ih (i + 1) (fun x hx => hall x (by simp [hx]))

theorem minYGo_no_update (grid : List (List ℚ)) (thr : ℚ) (L0 L1 : ℕ) :
    ∀ nas : List ℕ,
      (∀ na ∈ nas, firstTrueIdx (fun v => decide (thr < v)) (grid.getD na []) = 0) →
      minYGo grid thr L0 L1 nas = (L0, L1) := by
  intro nas
  induction nas with
  | nil => intro _; rfl
  | cons na rest ih =>
    intro hall
    rw [minYGo, if_neg (fun hcon => hcon (hall na (by simp)))]
    exact ih (fun x hx => hall x (by simp [hx]))

theorem minXGo_no_update (grid : List (List ℚ)) (thr : ℚ) (L0 L1 : ℕ) :
    ∀ nbs : List ℕ,
      (∀ nb ∈ nbs, firstTrueIdx (fun v => decide (thr < v)) (colAt grid nb) = 0) →
      minXGo grid thr L0 L1 nbs = (L0, L1) := by
  intro nbs
  induction nbs with
  | nil => intro _; rfl
  | cons nb rest ih =>
    intro hall
    rw [minXGo, if_neg (fun hcon => hcon (hall nb (by simp)))]
    exact ih (fun x hx => hall x (by simp [hx]))

-- ### Claim theorems: C7, C8, C9, C10

/-- C7 counterexample: with `MaxLags = (0, 1)` (input-lag cap `0`, output-lag
cap `1`) the returned grid's first axis has `2 = MaxLags[1] + 1` entries, not
`MaxLags[0] + 1 = 1` as the claim states: the source allocates
`np.full((MaxLags[1] + 1, MaxLags[0] + 1), np.nan)`. -/
theorem C7_counterexample :
    ¬ ((MaxLagsEstimator (fun _ _ => ([1], [[1]])) (fun M _ => M) 1 0 1 (1 / 2)).2).length
        = 0 + 1 := by
  have hgrid : (MaxLagsEstimator (fun _ _ => ([1], [[1]])) (fun M _ => M) 1 0 1 (1 / 2)).2
      = fillGrid (cellValue (fun _ _ => ([1], [[1]])) (fun M _ => M) 1) (1 + 1) (0 + 1) := rfl
  rw [hgrid, fillGrid_length]
  omega

/-- C7 (amended): the grid has dimensions `(MaxLags[1]+1) × (MaxLags[0]+1)`:
its first axis has `MaxLags[1]+1` entries indexed by the output lag `na`, its
second axis has `MaxLags[0]+1` entries indexed by the input lag `nb`, and entry
`(na, nb)` is the fill value whose regressors are built at lags `(nb, na)`. -/
theorem C7_grid_dimensions (Lag : ℕ → ℕ → List ℚ × List (List ℚ))
    (Exp : List (List ℚ) → ℕ → List (List ℚ)) (order L0 L1 : ℕ) (thr : ℚ) :
    ((MaxLagsEstimator Lag Exp order L0 L1 thr).2).length = L1 + 1 ∧
    (∀ row ∈ (MaxLagsEstimator Lag Exp order L0 L1 thr).2, row.length = L0 + 1) ∧
    ∀ na nb : ℕ, na < L1 + 1 → nb < L0 + 1 →
      gridEntry ((MaxLagsEstimator Lag Exp order L0 L1 thr).2) na nb
        = gridVal (cellValue Lag Exp order) na nb := by
  have hgrid : (MaxLagsEstimator Lag Exp order L0 L1 thr).2
      = fillGrid (cellValue Lag Exp order) (L1 + 1) (L0 + 1) := rfl
  rw [hgrid]
  exact ⟨fillGrid_length _ _ _, fillGrid_row_length _ _ _,
    fun na nb hna hnb => gridEntry_fillGrid _ _ _ _ _ hna hnb⟩

/-- Witness for the amended C7 at a concrete input. -/
theorem C7_grid_dimensions_witness :
    ((MaxLagsEstimator (fun _ _ => ([1], [[1]])) (fun M _ => M) 1 0 1 (1 / 2)).2).length
        = 1 + 1 ∧
    gridEntry ((MaxLagsEstimator (fun _ _ => ([1], [[1]])) (fun M _ => M) 1 0 1 (1 / 2)).2) 1 0
      = gridVal (cellValue (fun _ _ => ([1], [[1]])) (fun M _ => M) 1) 1 0 := by
  have h := C7_grid_dimensions (fun _ _ => ([1], [[1]])) (fun M _ => M) 1 0 1 (1 / 2)
  exact ⟨h.1, h.2.2 1 0 (by decide) (by decide)⟩

/-- C8: a cell `(na, nb)` of the filled grid is set to `1.0` by the dominance
shortcut exactly when both the cell one output-lag lower and the cell one
input-lag lower (indices clamped at `0`) already hold exactly `1.0`; at the
borders the clamped index denotes the cell itself, which still holds the `NaN`
fill when tested and never compares equal to `1.0` — hence the `1 ≤ na` and
`1 ≤ nb` guards.  In every other case the cell is computed as
`min(1, ΣERR)` from regressors built at exactly `(nb, na)`, expanded to
`order`, and centered. -/
theorem C8_dominance_shortcut (Lag : ℕ → ℕ → List ℚ × List (List ℚ))
    (Exp : List (List ℚ) → ℕ → List (List ℚ)) (order L0 L1 : ℕ) (thr : ℚ) (na nb : ℕ)
    (hna : na < L1 + 1) (hnb : nb < L0 + 1) :
    gridEntry ((MaxLagsEstimator Lag Exp order L0 L1 thr).2) na nb
      = if 1 ≤ na ∧ 1 ≤ nb
          ∧ gridEntry ((MaxLagsEstimator Lag Exp order L0 L1 thr).2) (na - 1) nb = 1
          ∧ gridEntry ((MaxLagsEstimator Lag Exp order L0 L1 thr).2) na (nb - 1) = 1
        then 1
        else min 1 (ComputeERR (centerVec (Lag nb na).1)
              (centerCols (Exp (Lag nb na).2 order))).sum := by
  have hgrid : (MaxLagsEstimator Lag Exp order L0 L1 thr).2
      = fillGrid (cellValue Lag Exp order) (L1 + 1) (L0 + 1) := rfl
  rw [hgrid]
  rw [gridEntry_fillGrid _ _ _ _ _ hna hnb,
    gridEntry_fillGrid _ _ _ _ _ (by omega) hnb,
    gridEntry_fillGrid _ _ _ _ _ hna (by omega)]
  cases na with
  | zero =>
    rw [gridVal_zero, if_neg (fun hcon => absurd hcon.1 (by omega))]
    rfl
  | succ m =>
    cases nb with
    | zero =>
      rw [gridVal_succ_zero, if_neg (fun hcon => absurd hcon.2.1 (by omega))]
      rfl
    | succ j =>
      rw [gridVal_succ_succ]
      simp only [Nat.add_sub_cancel]
      exact if_congr
        ⟨fun hc => ⟨by omega, by omega, hc.1, hc.2⟩, fun hc => ⟨hc.2.2.1, hc.2.2.2⟩⟩
        rfl rfl

/-- Witness for C8 at a concrete input, cell `(1, 1)` of a `2 × 2` grid. -/
theorem C8_dominance_shortcut_witness :
    gridEntry ((MaxLagsEstimator (fun _ _ => ([1], [[1]])) (fun M _ => M) 1 1 1 (1 / 2)).2) 1 1
      = if 1 ≤ 1 ∧ 1 ≤ 1
          ∧ gridEntry ((MaxLagsEstimator (fun _ _ => ([1], [[1]]))
              (fun M _ => M) 1 1 1 (1 / 2)).2) 0 1 = 1
          ∧ gridEntry ((MaxLagsEstimator (fun _ _ => ([1], [[1]]))
              (fun M _ => M) 1 1 1 (1 / 2)).2) 1 0 = 1
        then 1
        else min 1 (ComputeERR (centerVec ((fun _ _ : ℕ => (([1], [[1]]) : List ℚ × List (List ℚ))) 1 1).1)
              (centerCols ((fun M _ => M) ((fun _ _ : ℕ => (([1], [[1]]) : List ℚ × List (List ℚ))) 1 1).2 1))).sum :=
  C8_dominance_shortcut (fun _ _ => ([1], [[1]])) (fun M _ => M) 1 1 1 (1 / 2) 1 1
    (by decide) (by decide)

/-- The `1 × 1` grid of the concrete C9 instance evaluates to `[[1/4]]`. -/
theorem maxLags_concrete_grid :
    (MaxLagsEstimator (fun _ _ => ([0, 0, 3], [[1, 0, 0]])) (fun M _ => M) 1 0 0 (1 / 4)).2
      = [[1 / 4]] := by
  have hgrid : (MaxLagsEstimator (fun _ _ => ([0, 0, 3], [[1, 0, 0]])) (fun M _ => M)
        1 0 0 (1 / 4)).2
      = fillGrid (cellValue (fun _ _ => ([0, 0, 3], [[1, 0, 0]])) (fun M _ => M) 1) 1 1 := rfl
  have hcell : gridVal (cellValue (fun _ _ => ([0, 0, 3], [[1, 0, 0]])) (fun M _ => M) 1) 0 0
      = 1 / 4 := by
    rw [gridVal_zero]
    norm_num [cellValue, ComputeERR, errAux, centerVec, centerCols, mean, dot, norm2, vdiv,
      min_def]
  rw [hgrid, fillGrid_eq]
  have hr1 : List.range 1 = [0] := rfl
  simp only [hr1, List.map_cons, List.map_nil]
  rw [hcell]

/-- C9 counterexample: with the grid maximum exactly equal to the threshold
(grid `[[1/4]]`, threshold `1/4`) no cell exceeds the threshold, yet the
warning condition `np.max(Grid) < VarianceAcceptThreshold` is false, so the
warning the claim promises for this case is not emitted. -/
theorem C9_counterexample :
    (MaxLagsEstimator (fun _ _ => ([0, 0, 3], [[1, 0, 0]])) (fun M _ => M) 1 0 0 (1 / 4)).2
        = [[1 / 4]] ∧
    warnInsufficient
        ((MaxLagsEstimator (fun _ _ => ([0, 0, 3], [[1, 0, 0]])) (fun M _ => M) 1 0 0 (1 / 4)).2)
        (1 / 4) = false := by
  refine ⟨maxLags_concrete_grid, ?_⟩
  rw [maxLags_concrete_grid]
  norm_num [warnInsufficient, listMax]

/-- C9 (amended): whenever no grid cell exceeds the threshold, all three
recommendations stay at the maximum-lag corner `(MaxLags[0], MaxLags[1])`; the
non-fatal warning, however, is printed exactly when the grid's maximum is
strictly below the threshold (`np.max(Grid) < thr`), so no warning appears when
the maximum equals the threshold. -/
theorem C9_recommendations_default (Lag : ℕ → ℕ → List ℚ × List (List ℚ))
    (Exp : List (List ℚ) → ℕ → List (List ℚ)) (order L0 L1 : ℕ) (thr : ℚ)
    (hall : ∀ na nb : ℕ, na < L1 + 1 → nb < L0 + 1 →
      gridEntry ((MaxLagsEstimator Lag Exp order L0 L1 thr).2) na nb ≤ thr) :
    (MaxLagsEstimator Lag Exp order L0 L1 thr).1.minXY = (L0, L1) ∧
    (MaxLagsEstimator Lag Exp order L0 L1 thr).1.minX = (L0, L1) ∧
    (MaxLagsEstimator Lag Exp order L0 L1 thr).1.minY = (L0, L1) ∧
    (warnInsufficient ((MaxLagsEstimator Lag Exp order L0 L1 thr).2) thr = true ↔
      listMax ((MaxLagsEstimator Lag Exp order L0 L1 thr).2).flatten < thr) := by
  have hgrid : (MaxLagsEstimator Lag Exp order L0 L1 thr).2
      = fillGrid (cellValue Lag Exp order) (L1 + 1) (L0 + 1) := rfl
  rw [hgrid] at hall
  refine ⟨?_, ?_, ?_, by simp [warnInsufficient]⟩
  · show minXYGo (fillGrid (cellValue Lag Exp order) (L1 + 1) (L0 + 1)) thr
      (lagPairs L0 L1) none (L0, L1) = (L0, L1)
    refine minXYGo_no_update _ _ _ _ _ ?_
    intro p hp
    unfold lagPairs at hp
    obtain ⟨na, hna, hp2⟩ := List.mem_flatMap.mp hp
    obtain ⟨nb, hnb, rfl⟩ := List.mem_map.mp hp2
    exact not_lt.mpr (hall na nb (List.mem_range.mp hna) (List.mem_range.mp hnb))
  · show minXGo (fillGrid (cellValue Lag Exp order) (L1 + 1) (L0 + 1)) thr L0 L1
      (List.range (L0 + 1)) = (L0, L1)
    refine minXGo_no_update _ _ _ _ _ ?_
    intro nb hnb
    refine firstTrueIdxGo_all_false _ _ _ ?_
    intro a ha
    unfold colAt at ha
    obtain ⟨row, hrow, rfl⟩ := List.mem_map.mp ha
    rw [fillGrid_eq] at hrow
    obtain ⟨na, hna, rfl⟩ := List.mem_map.mp hrow
    rw [getD_map_range_q _ _ _ (List.mem_range.mp hnb)]
    refine decide_eq_false (not_lt.mpr ?_)
    have := hall na nb (List.mem_range.mp hna) (List.mem_range.mp hnb)
    rw [gridEntry_fillGrid _ _ _ _ _ (List.mem_range.mp hna) (List.mem_range.mp hnb)] at this
    exact this
  · show minYGo (fillGrid (cellValue Lag Exp order) (L1 + 1) (L0 + 1)) thr L0 L1
      (List.range (L1 + 1)) = (L0, L1)
    refine minYGo_no_update _ _ _ _ _ ?_
    intro na hna
    refine firstTrueIdxGo_all_false _ _ _ ?_
    intro a ha
    rw [fillGrid_eq, getD_map_range _ _ _ (List.mem_range.mp hna)] at ha
    obtain ⟨nb, hnb, rfl⟩ := List.mem_map.mp ha
    refine decide_eq_false (not_lt.mpr ?_)
    have := hall na nb (List.mem_range.mp hna) (List.mem_range.mp hnb)
    rw [gridEntry_fillGrid _ _ _ _ _ (List.mem_range.mp hna) (List.mem_range.mp hnb)] at this
    exact this

/-- Witness for the amended C9 at the concrete `[[1/4]]` grid with threshold
`1/4`. -/
theorem C9_recommendations_default_witness :
    (MaxLagsEstimator (fun _ _ => ([0, 0, 3], [[1, 0, 0]])) (fun M _ => M)
        1 0 0 (1 / 4)).1.minXY = (0, 0) ∧
    (MaxLagsEstimator (fun _ _ => ([0, 0, 3], [[1, 0, 0]])) (fun M _ => M)
        1 0 0 (1 / 4)).1.minX = (0, 0) ∧
    (MaxLagsEstimator (fun _ _ => ([0, 0, 3], [[1, 0, 0]])) (fun M _ => M)
        1 0 0 (1 / 4)).1.minY = (0, 0) := by
  have h := C9_recommendations_default (fun _ _ => ([0, 0, 3], [[1, 0, 0]])) (fun M _ => M)
    1 0 0 (1 / 4) ?hall
  · exact ⟨h.1, h.2.1, h.2.2.1⟩
  case hall =>
    intro na nb hna hnb
    have hna0 : na = 0 := by omega
    have hnb0 : nb = 0 := by omega
    subst hna0
    subst hnb0
    rw [maxLags_concrete_grid]
    norm_num [gridEntry]

/-- C10: on return every cell of the grid has been assigned a value (no `NaN`
sentinel remains): the grid has its full `(MaxLags[1]+1) × (MaxLags[0]+1)`
shape and each cell is either `1.0` from the dominance shortcut or
`min(1, ΣERR)`.  Over exact rational arithmetic the claim's precondition —
`ComputeERR` returning finite, non-negative entries — holds unconditionally,
so every cell lies in `[0, 1]`. -/
theorem C10_grid_fully_assigned (Lag : ℕ → ℕ → List ℚ × List (List ℚ))
    (Exp : List (List ℚ) → ℕ → List (List ℚ)) (order L0 L1 : ℕ) (thr : ℚ) :
    ((MaxLagsEstimator Lag Exp order L0 L1 thr).2).length = L1 + 1 ∧
    ∀ row ∈ (MaxLagsEstimator Lag Exp order L0 L1 thr).2,
      row.length = L0 + 1 ∧ ∀ v ∈ row, 0 ≤ v ∧ v ≤ 1 := by
  have hgrid : (MaxLagsEstimator Lag Exp order L0 L1 thr).2
      = fillGrid (cellValue Lag Exp order) (L1 + 1) (L0 + 1) := rfl
  rw [hgrid]
  refine ⟨fillGrid_length _ _ _, ?_⟩
  intro row hrow
  refine ⟨fillGrid_row_length _ _ _ row hrow, ?_⟩
  rw [fillGrid_eq] at hrow
  obtain ⟨na, _, rfl⟩ := List.mem_map.mp hrow
  intro v hv
  obtain ⟨nb, _, rfl⟩ := List.mem_map.mp hv
  rcases gridVal_eq_one_or_cell (cellValue Lag Exp order) na nb with h | h
  · rw [h]
    norm_num
  · rw [h]
    exact ⟨cellValue_nonneg _ _ _ _ _, cellValue_le_one _ _ _ _ _⟩

/-- Witness for C10 at the concrete `[[1/4]]` grid. -/
theorem C10_grid_fully_assigned_witness :
    ([[1 / 4]] : List (List ℚ)).length = 0 + 1 ∧
    ([1 / 4] : List ℚ).length = 0 + 1 ∧ (0 : ℚ) ≤ 1 / 4 ∧ (1 / 4 : ℚ) ≤ 1 := by
  have h := C10_grid_fully_assigned (fun _ _ => ([0, 0, 3], [[1, 0, 0]])) (fun M _ => M)
    1 0 0 (1 / 4)
  rw [maxLags_concrete_grid] at h
  have h2 := h.2 [1 / 4] (List.mem_singleton.mpr rfl)
  have h3 := h2.2 (1 / 4) (List.mem_singleton.mpr rfl)
  exact ⟨h.1, h2.1, h3.1, h3.2⟩

end RFOrLSR
